import Mathlib

/-!
Shallow embedding of the first-order resolution prover in `src/main.py`.

The Python program's generally-recursive functions (`unify`, `unify_var`,
`unify_lists`, `occurs_check`, `substitute`, and the saturation `while` loop
of `resolution`) can diverge on inputs the program never produces (for
example cyclic substitutions); they are embedded as fuel-indexed functions
returning `none` when the fuel runs out, so that `f fuel args = some r`
states that the Python computation terminates with result `r`.  Results are
independent of the fuel (monotonicity lemmas below).

Python `Term(name)` / `Function(name, args)` values are the inductive
`FTerm`; a Python substitution dict (keys compared structurally via
`__eq__`/`__hash__`) is an association list `Subst` extended by consing a
key that is absent, which has the same lookup semantics as the dict because
`unify_var` only ever adds a binding for a key not already present.
Argument lists meet `unify` only when `resolve` unifies two literals'
argument tuples, so the embedding provides the term/term and list/list
entry points of `unify` (mixed term/list calls never occur in the program;
in Python they would raise on `list` hashing).  Python `set`s of clauses
are deduplicated insertion-ordered lists with membership tested by the
set-based clause equality of `Clause.__eq__`.
-/

set_option maxHeartbeats 1000000

namespace FOL

/-- Terms of `main.py`: a `Term(name)` leaf or a `Function(name, args)`. -/
inductive FTerm where
  | term (name : String)
  | func (name : String) (args : List FTerm)
deriving Repr

mutual
/-- Structural equality of terms, Python's recursive `__eq__`. -/
def FTerm.beq : FTerm → FTerm → Bool
  | .term a, .term b => a == b
  | .func f as, .func g bs => f == g && FTerm.beqL as bs
  | _, _ => false

/-- Structural equality of argument lists. -/
def FTerm.beqL : List FTerm → List FTerm → Bool
  | [], [] => true
  | a :: as, b :: bs => FTerm.beq a b && FTerm.beqL as bs
  | _, _ => false
end

mutual
theorem FTerm.beq_iff : ∀ a b : FTerm, FTerm.beq a b = true ↔ a = b
  | .term _, .term _ => by simp [FTerm.beq]
  | .term _, .func _ _ => by simp [FTerm.beq]
  | .func _ _, .term _ => by simp [FTerm.beq]
  | .func f as, .func g bs => by
    simp [FTerm.beq, FTerm.beqL_iff as bs, FTerm.func.injEq, Bool.and_eq_true,
      beq_iff_eq]

theorem FTerm.beqL_iff : ∀ as bs : List FTerm, FTerm.beqL as bs = true ↔ as = bs
  | [], [] => by simp [FTerm.beqL]
  | [], _ :: _ => by simp [FTerm.beqL]
  | _ :: _, [] => by simp [FTerm.beqL]
  | a :: as, b :: bs => by
    simp [FTerm.beqL, FTerm.beq_iff a b, FTerm.beqL_iff as bs]
end

instance : DecidableEq FTerm := fun a b => decidable_of_iff _ (FTerm.beq_iff a b)

/-- `[a-z]` of `Term.is_variable`'s regex. -/
def isLowerC (c : Char) : Bool := 'a' ≤ c && c ≤ 'z'

/-- `[A-Z]`. -/
def isUpperC (c : Char) : Bool := 'A' ≤ c && c ≤ 'Z'

/-- `[0-9]`. -/
def isDigitC (c : Char) : Bool := '0' ≤ c && c ≤ '9'

/-- `[a-zA-Z0-9_]`. -/
def isWordC (c : Char) : Bool := isLowerC c || isUpperC c || isDigitC c || c = '_'

/-- `re.fullmatch(r"[a-z][a-zA-Z0-9_]*", name)` of `Term.is_variable`. -/
def is_variable_name (nm : String) : Bool :=
  match nm.data with
  | [] => false
  | c :: cs => isLowerC c && cs.all isWordC

/-- `is_variable(x)`: `isinstance(x, Term) and x.is_variable()`. -/
def is_variable : FTerm → Bool
  | .term nm => is_variable_name nm
  | .func _ _ => false

/-- A Python substitution dict: association list with structural key lookup. -/
abbrev Subst := List (FTerm × FTerm)

/-- `x in subst` / `subst[x]`: dict lookup by structural equality. -/
def slookup : Subst → FTerm → Option FTerm
  | [], _ => none
  | (k, v) :: rest, x => if k = x then some v else slookup rest x

/-- Option-propagating map over a term list (a Python list comprehension
whose element computations may be fuel-cut). -/
def optMap (g : FTerm → Option FTerm) : List FTerm → Option (List FTerm)
  | [] => some []
  | t :: ts =>
    match g t, optMap g ts with
    | some u, some us => some (u :: us)
    | _, _ => none

/-- The non-chasing part of `substitute`: rebuild a `Function` with
substituted arguments, return anything else unchanged. -/
def substituteNoKey (g : FTerm → Option FTerm) : FTerm → Option FTerm
  | .func f args => (optMap g args).map (fun us => FTerm.func f us)
  | t => some t

/-- `substitute(term, subst)` (full chase), fuel-indexed. -/
def substituteF : Nat → FTerm → Subst → Option FTerm
  | 0, _, _ => none
  | m+1, t, s =>
    match slookup s t with
    | some v => substituteF m v s
    | none => substituteNoKey (fun a => substituteF m a s) t

/-- `[substitute(arg, subst) for arg in args]`. -/
def substituteLF (m : Nat) (ts : List FTerm) (s : Subst) : Option (List FTerm) :=
  optMap (fun t => substituteF m t s) ts

/-- Short-circuiting `any` over option-valued checks (Python's `any(...)`
over a generator of `occurs_check` calls). -/
def anyOpt (g : FTerm → Option Bool) : List FTerm → Option Bool
  | [] => some false
  | t :: ts =>
    match g t with
    | none => none
    | some true => some true
    | some false => anyOpt g ts

/-- The body of `occurs_check(var, x, subst)`, abstracted over the
recursive call.  Only `Term`s are chased through the substitution
(`isinstance(x, Term) and x in subst`). -/
def occursStep (g : FTerm → Option Bool) (s : Subst) (v x : FTerm) : Option Bool :=
  if v = x then some true
  else
    match x with
    | .term _ =>
      match slookup s x with
      | some w => g w
      | none => some false
    | .func _ args => anyOpt g args

/-- `occurs_check(var, x, subst)`, fuel-indexed. -/
def occursF : Nat → FTerm → FTerm → Subst → Option Bool
  | 0, _, _, _ => none
  | n+1, v, x, s => occursStep (fun a => occursF n v a s) s v x

/-- The body of `unify_var(var, x, subst)`, abstracted over the recursive
`unify` and `occurs_check` calls. -/
def unify_varStep (g : FTerm → FTerm → Subst → Option (Option Subst))
    (occ : FTerm → FTerm → Subst → Option Bool)
    (v x : FTerm) (s : Subst) : Option (Option Subst) :=
  match slookup s v with
  | some w => g w x s
  | none =>
    match slookup s x with
    | some w => g v w s
    | none =>
      match occ v x s with
      | none => none
      | some true => some none
      | some false => some (some ((v, x) :: s))

/-- The loop of `unify_lists`: thread the substitution through pairwise
unifications, failing fast on `None`. -/
def foldUnify (g : FTerm → FTerm → Subst → Option (Option Subst)) :
    List FTerm → List FTerm → Subst → Option (Option Subst)
  | [], [], s => some (some s)
  | x :: xs, y :: ys, s =>
    match g x y s with
    | none => none
    | some none => some none
    | some (some s2) => foldUnify g xs ys s2
  | _, _, _ => some none

/-- `unify_lists(xs, ys, subst)`: length check, then the threading loop. -/
def unify_listsW (g : FTerm → FTerm → Subst → Option (Option Subst))
    (xs ys : List FTerm) (s : Subst) : Option (Option Subst) :=
  if xs.length ≠ ys.length then some none else foldUnify g xs ys s

/-- The body of `unify(x, y, subst)` on two terms, abstracted over the
recursive `unify` and `occurs_check` calls.  The `subst is None`
short-circuit of the source is represented by the callers (the threading in
`foldUnify`), which never pass a failed substitution on. -/
def unifyStep (g : FTerm → FTerm → Subst → Option (Option Subst))
    (occ : FTerm → FTerm → Subst → Option Bool)
    (x y : FTerm) (s : Subst) : Option (Option Subst) :=
  if x = y then some (some s)
  else if is_variable x then unify_varStep g occ x y s
  else if is_variable y then unify_varStep g occ y x s
  else
    match x, y with
    | .func f xargs, .func f2 yargs =>
      if f ≠ f2 ∨ xargs.length ≠ yargs.length then some none
      else unify_listsW g xargs yargs s
    | _, _ => some none

/-- `unify(x, y, subst)` on two terms, fuel-indexed.  `some none` is
Python's `None` failure sentinel; outer `none` is fuel exhaustion. -/
def unifyF : Nat → FTerm → FTerm → Subst → Option (Option Subst)
  | 0, _, _, _ => none
  | n+1, x, y, s =>
    unifyStep (fun a b s2 => unifyF n a b s2) (fun a b s2 => occursF n a b s2) x y s

/-- `unify_var(var, x, subst)` with fuel `n` for its recursive calls. -/
def unify_varF (n : Nat) (v x : FTerm) (s : Subst) : Option (Option Subst) :=
  unify_varStep (fun a b s2 => unifyF n a b s2) (fun a b s2 => occursF n a b s2) v x s

/-- `unify_lists(xs, ys, subst)` with fuel `n` for its recursive calls. -/
def unifyListsF (n : Nat) (xs ys : List FTerm) (s : Subst) : Option (Option Subst) :=
  unify_listsW (fun a b s2 => unifyF n a b s2) xs ys s

/-- `unify(xs, ys, subst)` called on two argument lists, as `resolve` calls
it: the top-level dispatch of `unify` reaching the `list`/`list` branch
(`x == y` can already succeed at the top). -/
def unifyTopF : Nat → List FTerm → List FTerm → Subst → Option (Option Subst)
  | 0, _, _, _ => none
  | n+1, xs, ys, s =>
    if xs = ys then some (some s)
    else unifyListsF n xs ys s

/-- `Predicate(name, args, negated)`. -/
structure Pred where
  name : String
  args : List FTerm
  negated : Bool
deriving Repr, DecidableEq

/-- `Clause(literals)`.  Its Python equality is set equality of literals,
embedded below as `clauseEq`, not as structural equality of this record. -/
structure Clause where
  literals : List Pred
deriving Repr, DecidableEq

/-- `Clause.__eq__`: `set(self.literals) == set(other.literals)`. -/
def clauseEq (c d : Clause) : Bool :=
  c.literals.all (fun p => d.literals.contains p) &&
    d.literals.all (fun p => c.literals.contains p)

/-- `substitute_predicate(pred, subst)`, fuel-indexed through `substitute`. -/
def substitute_predicateF (m : Nat) (p : Pred) (s : Subst) : Option Pred :=
  (substituteLF m p.args s).map (fun as => Pred.mk p.name as p.negated)

/-- `[substitute_predicate(p, subst) for p in ps]`. -/
def substPredListF (m : Nat) : List Pred → Subst → Option (List Pred)
  | [], _ => some []
  | p :: rest, s =>
    match substitute_predicateF m p s, substPredListF m rest s with
    | some q, some qs => some (q :: qs)
    | _, _ => none

/-- `list(set(...))` over literals: deduplicate, keeping first occurrences. -/
def dedupPreds (ps : List Pred) : List Pred :=
  ps.foldl (fun acc p => if acc.contains p then acc else acc ++ [p]) []

/-- One `(pi, pj)` iteration of `resolve`'s nested loops: zero or one
resolvent. -/
def resolvePairF (uf : Nat) (ci cj : Clause) (p q : Pred) : Option (List Clause) :=
  if p.name = q.name ∧ p.negated ≠ q.negated then
    match unifyTopF uf p.args q.args [] with
    | none => none
    | some none => some []
    | some (some s) =>
      match substPredListF uf (ci.literals.filter (fun r => r ≠ p)) s,
            substPredListF uf (cj.literals.filter (fun r => r ≠ q)) s with
      | some nci, some ncj => some [Clause.mk (dedupPreds (nci ++ ncj))]
      | _, _ => none
  else some []

/-- The inner `for pj in cj.literals` loop of `resolve`. -/
def resolveInnerF (uf : Nat) (ci cj : Clause) (p : Pred) :
    List Pred → Option (List Clause)
  | [] => some []
  | q :: rest =>
    match resolvePairF uf ci cj p q, resolveInnerF uf ci cj p rest with
    | some rs, some more => some (rs ++ more)
    | _, _ => none

/-- The outer `for pi in ci.literals` loop of `resolve`. -/
def resolveOuterF (uf : Nat) (ci cj : Clause) : List Pred → Option (List Clause)
  | [] => some []
  | p :: rest =>
    match resolveInnerF uf ci cj p cj.literals, resolveOuterF uf ci cj rest with
    | some rs, some more => some (rs ++ more)
    | _, _ => none

/-- `resolve(ci, cj)`: all resolvents of the two clauses, in loop order. -/
def resolveF (uf : Nat) (ci cj : Clause) : Option (List Clause) :=
  resolveOuterF uf ci cj ci.literals

/-- `res in derived`: membership in a Python set of clauses, by the
set-based clause equality. -/
def containsClause (d : List Clause) (c : Clause) : Bool :=
  d.any (fun e => clauseEq e c)

/-- Outcome of scanning one pair's resolvents inside a round: either the
empty clause was found (with the `derived` set as updated so far), or the
updated `derived` and `new` sets. -/
inductive ScanOut where
  | empty (derived : List Clause)
  | cont (derived : List Clause) (new : List Clause)
deriving Repr, DecidableEq

/-- The `for res in resolvents` loop of `resolution`: report the empty
clause immediately, otherwise add unseen resolvents to `derived` and `new`. -/
def scanRes : List Clause → List Clause → List Clause → ScanOut
  | [], derived, new => .cont derived new
  | r :: rest, derived, new =>
    if r.literals = [] then .empty derived
    else if containsClause derived r then scanRes rest derived new
    else scanRes rest (derived ++ [r]) (new ++ [r])

/-- Outcome of one saturation round over a pair list. -/
inductive RoundOut where
  | foundEmpty (derived : List Clause)
  | done (derived : List Clause) (new : List Clause)
deriving Repr, DecidableEq

/-- The `for (ci, cj) in pairs` loop of one round of `resolution`. -/
def roundF (uf : Nat) : List (Clause × Clause) → List Clause → List Clause →
    Option RoundOut
  | [], derived, new => some (.done derived new)
  | (ci, cj) :: rest, derived, new =>
    match resolveF uf ci cj with
    | none => none
    | some rs =>
      match scanRes rs derived new with
      | .empty d2 => some (.foundEmpty d2)
      | .cont d2 n2 => roundF uf rest d2 n2

/-- `[(clauses[i], clauses[j]) for i in range(n) for j in range(i+1, n)]`. -/
def pairsOf : List Clause → List (Clause × Clause)
  | [] => []
  | c :: cs => cs.map (fun d => (c, d)) ++ pairsOf cs

/-- The state of `resolution`: the caller's `kb` sequence, the working
`clauses` list (initially a copy of `kb`), and the `derived` set. -/
structure RState where
  kb : List Clause
  clauses : List Clause
  derived : List Clause
deriving Repr, DecidableEq

/-- The `while True` loop of `resolution`, fuel-indexed by a round count.
The caller's `kb` is carried through untouched; only `clauses` and
`derived` evolve. -/
def resolutionS (uf : Nat) : Nat → RState → Option (String × RState)
  | 0, _ => none
  | r+1, st =>
    match roundF uf (pairsOf st.clauses) st.derived [] with
    | none => none
    | some (.foundEmpty d2) => some ("no", RState.mk st.kb st.clauses d2)
    | some (.done d2 n2) =>
      if n2 = [] then some ("yes", RState.mk st.kb st.clauses d2)
      else resolutionS uf r (RState.mk st.kb (st.clauses ++ n2) d2)

/-- `derived = set(clauses)`: the initial deduplicated derived set. -/
def initDerived (cs : List Clause) : List Clause :=
  cs.foldl (fun d c => if containsClause d c then d else d ++ [c]) []

/-- `resolution(kb)`: copy `kb` into the working list, seed `derived`, and
run the saturation loop. -/
def resolutionRun (uf rf : Nat) (kb : List Clause) : Option (String × RState) :=
  resolutionS uf rf (RState.mk kb kb (initDerived kb))

/-! ### Specification-level predicates over the embedding -/

/-- `substitute(t, s)` terminates with value `u`. -/
def NormO (s : Subst) (t u : FTerm) : Prop := ∃ m, substituteF m t s = some u

/-- `[substitute(t, s) for t in ts]` terminates with value `us`. -/
def NormLO (s : Subst) (ts us : List FTerm) : Prop := ∃ m, substituteLF m ts s = some us

/-- `substitute(t, s)` terminates. -/
def Converges (s : Subst) (t : FTerm) : Prop := ∃ u, NormO s t u

/-- `occurs_check(v, t, s)` terminates and returns `False`. -/
def OccFalse (s : Subst) (v t : FTerm) : Prop := ∃ k, occursF k v t s = some false

/-- All keys of the substitution are variables: the invariant of every
substitution the program builds (`unify_var` only binds a term that passed
`is_variable`). -/
def KeysVar (s : Subst) : Prop := ∀ p ∈ s, is_variable p.1 = true

/-- The substitution is cycle-free: `substitute` terminates on every bound
value.  This is the invariant the occurs-check maintains. -/
def Acyclic (s : Subst) : Prop := ∀ p ∈ s, Converges s p.2

/-- Every binding of `s` is still present in `s2`: the copy-on-extend
discipline means unification only ever adds bindings. -/
def Extends (s s2 : Subst) : Prop :=
  ∀ k v, slookup s k = some v → slookup s2 k = some v

/-- `x` and `y` have a common `substitute` normal form under `s`. -/
def EqU (s : Subst) (x y : FTerm) : Prop := ∃ u, NormO s x u ∧ NormO s y u

/-- Argument lists `xs` and `ys` have a common pointwise normal form. -/
def EqUL (s : Subst) (xs ys : List FTerm) : Prop :=
  ∃ us, NormLO s xs us ∧ NormLO s ys us

/-! ### Valuations: simultaneous substitutions for completeness statements -/

mutual
/-- Apply a valuation (a simultaneous substitution of terms for names) to
a term: replace every `Term` leaf by its image. -/
def applyV (θ : String → FTerm) : FTerm → FTerm
  | .term nm => θ nm
  | .func f args => .func f (applyVL θ args)

/-- Apply a valuation to every term of a list. -/
def applyVL (θ : String → FTerm) : List FTerm → List FTerm
  | [] => []
  | t :: ts => applyV θ t :: applyVL θ ts
end

mutual
/-- The size of a term (number of constructors). -/
def sizeT : FTerm → Nat
  | .term _ => 1
  | .func _ args => 1 + sizeTL args

/-- The total size of a list of terms. -/
def sizeTL : List FTerm → Nat
  | [] => 0
  | t :: ts => sizeT t + sizeTL ts
end

/-- The valuation satisfies every binding of the substitution. -/
def Models (θ : String → FTerm) (s : Subst) : Prop :=
  ∀ p ∈ s, applyV θ p.1 = applyV θ p.2

/-- The valuation only moves variables: names that fail `is_variable` are
fixed (they denote constants of the term language). -/
def ValOK (θ : String → FTerm) : Prop :=
  ∀ nm, is_variable_name nm = false → θ nm = FTerm.term nm

mutual
/-- The call-tree size of `substitute(t, s)`: a derivation exists exactly
when the chase terminates, and its value is the measure that decreases
along the recursion of `unify`. -/
inductive Cost : Subst → FTerm → Nat → Prop where
  | chase {s : Subst} {t v : FTerm} {w : Nat} :
      slookup s t = some v → Cost s v w → Cost s t (w + 1)
  | leaf {s : Subst} {nm : String} :
      slookup s (.term nm) = none → Cost s (.term nm) 1
  | node {s : Subst} {f : String} {args : List FTerm} {w : Nat} :
      slookup s (.func f args) = none → CostL s args w →
      Cost s (.func f args) (w + 1)

/-- The total call-tree size over a list of terms. -/
inductive CostL : Subst → List FTerm → Nat → Prop where
  | nil {s : Subst} : CostL s [] 0
  | cons {s : Subst} {t : FTerm} {ts : List FTerm} {w1 w2 : Nat} :
      Cost s t w1 → CostL s ts w2 → CostL s (t :: ts) (w1 + w2)
end

mutual
/-- The set of `Term` leaves of a term (its variables, when the term obeys
the naming convention, plus constant leaves). -/
def tvarsF : FTerm → Finset FTerm
  | .term nm => {FTerm.term nm}
  | .func _ args => tvarsFL args

/-- The set of `Term` leaves of a list of terms. -/
def tvarsFL : List FTerm → Finset FTerm
  | [] => ∅
  | t :: ts => tvarsF t ∪ tvarsFL ts
end

/-- All `Term` leaves occurring in a substitution (keys and values). -/
def allVars : Subst → Finset FTerm
  | [] => ∅
  | p :: rest => tvarsF p.1 ∪ tvarsF p.2 ∪ allVars rest

/-- The set of keys of a substitution. -/
def keysF (s : Subst) : Finset FTerm := (s.map (fun p => p.1)).toFinset

/-! ### Concrete knowledge bases named in the specification -/

/-- The clause `{P(x)}`. -/
def clausePx : Clause := Clause.mk [Pred.mk "P" [FTerm.term "x"] false]

/-- The clause `{!P(A)}`. -/
def clauseNPA : Clause := Clause.mk [Pred.mk "P" [FTerm.term "A"] true]

/-- The clause `{P(A)}`. -/
def clausePA : Clause := Clause.mk [Pred.mk "P" [FTerm.term "A"] false]

/-- The clause `{Q(B)}`. -/
def clauseQB : Clause := Clause.mk [Pred.mk "Q" [FTerm.term "B"] false]

/-! ### Basic lemmas about lookup and the option-level list combinators -/

theorem slookup_mem : ∀ {s : Subst} {x v : FTerm}, slookup s x = some v → (x, v) ∈ s
  | [], x, v, h => by simp [slookup] at h
  | (k, w) :: rest, x, v, h => by
    by_cases hk : k = x
    · subst hk
      simp [slookup] at h
      subst h
      exact List.mem_cons_self _ _
    · rw [slookup, if_neg hk] at h
      exact List.mem_cons_of_mem _ (slookup_mem h)

theorem slookup_cons_ne {s : Subst} {k x w : FTerm} (h : k ≠ x) :
    slookup ((k, w) :: s) x = slookup s x := by
  rw [slookup, if_neg h]

theorem slookup_cons_self {s : Subst} {k w : FTerm} :
    slookup ((k, w) :: s) k = some w := by
  rw [slookup, if_pos rfl]

theorem optMap_cons {g : FTerm → Option FTerm} {t : FTerm} {ts : List FTerm}
    {us : List FTerm} (h : optMap g (t :: ts) = some us) :
    ∃ u us2, g t = some u ∧ optMap g ts = some us2 ∧ us = u :: us2 := by
  rw [optMap] at h
  cases hgt : g t with
  | none => rw [hgt] at h; exact absurd h (by simp)
  | some u =>
    cases hrest : optMap g ts with
    | none => rw [hgt, hrest] at h; exact absurd h (by simp)
    | some us2 =>
      rw [hgt, hrest] at h
      exact ⟨u, us2, rfl, rfl, (Option.some.injEq _ _ ▸ h).symm⟩

theorem optMap_build {g : FTerm → Option FTerm} {t u : FTerm} {ts us : List FTerm}
    (h1 : g t = some u) (h2 : optMap g ts = some us) :
    optMap g (t :: ts) = some (u :: us) := by
  rw [optMap, h1, h2]

theorem optMap_mono {g g' : FTerm → Option FTerm}
    (hg : ∀ t u, g t = some u → g' t = some u) :
    ∀ {ts us : List FTerm}, optMap g ts = some us → optMap g' ts = some us
  | [], us, h => by simpa [optMap] using h
  | t :: ts, us, h => by
    obtain ⟨u, us2, hgt, hrest, rfl⟩ := optMap_cons h
    exact optMap_build (hg t u hgt) (optMap_mono hg hrest)

theorem optMap_mem {g : FTerm → Option FTerm} :
    ∀ {ts us : List FTerm}, optMap g ts = some us →
      ∀ t ∈ ts, ∃ u ∈ us, g t = some u
  | [], us, _, t, ht => absurd ht (by simp)
  | t0 :: ts, us, h, t, ht => by
    obtain ⟨u, us2, hgt, hrest, rfl⟩ := optMap_cons h
    rcases List.mem_cons.mp ht with rfl | ht2
    · exact ⟨u, by simp, hgt⟩
    · obtain ⟨u2, hu2, hg2⟩ := optMap_mem hrest t ht2
      exact ⟨u2, by simp [hu2], hg2⟩

theorem optMap_congr {g g' : FTerm → Option FTerm} :
    ∀ {ts : List FTerm}, (∀ t ∈ ts, g t = g' t) → optMap g ts = optMap g' ts
  | [], _ => rfl
  | t :: ts, h => by
    rw [optMap, optMap, h t (by simp), optMap_congr (fun a ha => h a (by simp [ha]))]

theorem anyOpt_false {g : FTerm → Option Bool} :
    ∀ {ts : List FTerm}, anyOpt g ts = some false → ∀ t ∈ ts, g t = some false
  | [], _, t, ht => absurd ht (by simp)
  | t0 :: ts, h, t, ht => by
    rw [anyOpt] at h
    cases hgt : g t0 with
    | none => rw [hgt] at h; exact absurd h (by simp)
    | some b =>
      cases b with
      | true => rw [hgt] at h; exact absurd h (by simp)
      | false =>
        rw [hgt] at h
        rcases List.mem_cons.mp ht with rfl | ht2
        · exact hgt
        · exact anyOpt_false h t ht2

/-! ### Fuel monotonicity of `substituteF` and `occursF` -/

theorem substituteF_succ :
    ∀ {m : Nat} {t : FTerm} {s : Subst} {u : FTerm},
      substituteF m t s = some u → substituteF (m + 1) t s = some u
  | 0, t, s, u, h => by simp [substituteF] at h
  | m+1, t, s, u, h => by
    rw [substituteF] at h ⊢
    cases hl : slookup s t with
    | some v =>
      rw [hl] at h
      exact substituteF_succ h
    | none =>
      rw [hl] at h
      cases t with
      | term nm => exact h
      | func f args =>
        replace h : (optMap (fun a => substituteF m a s) args).map
            (fun us => FTerm.func f us) = some u := h
        show (optMap (fun a => substituteF (m + 1) a s) args).map
            (fun us => FTerm.func f us) = some u
        cases hmap : optMap (fun a => substituteF m a s) args with
        | none => rw [hmap] at h; exact absurd h (by simp)
        | some us =>
          rw [hmap] at h
          rw [optMap_mono (fun t u hu => substituteF_succ hu) hmap]
          exact h

theorem substituteF_le {m m' : Nat} (hm : m ≤ m') {t : FTerm} {s : Subst}
    {u : FTerm} (h : substituteF m t s = some u) : substituteF m' t s = some u := by
  induction hm with
  | refl => exact h
  | step _ ih => exact substituteF_succ ih

theorem occursF_succ :
    ∀ {n : Nat} {v x : FTerm} {s : Subst} {b : Bool},
      occursF n v x s = some b → occursF (n + 1) v x s = some b
  | 0, v, x, s, b, h => by simp [occursF] at h
  | n+1, v, x, s, b, h => by
    rw [occursF] at h ⊢
    unfold occursStep at h ⊢
    by_cases hv : v = x
    · rw [if_pos hv] at h ⊢; exact h
    · rw [if_neg hv] at h ⊢
      cases x with
      | term nm =>
        cases hl : slookup s (FTerm.term nm) with
        | some w =>
          rw [hl] at h
          exact occursF_succ h
        | none =>
          rw [hl] at h
          exact h
      | func f args =>
        clear hv
        replace h : anyOpt (fun a => occursF n v a s) args = some b := h
        show anyOpt (fun a => occursF (n + 1) v a s) args = some b
        induction args with
        | nil => exact h
        | cons a as ih =>
          rw [anyOpt] at h ⊢
          cases hga : occursF n v a s with
          | none => rw [hga] at h; exact absurd h (by simp)
          | some b2 =>
            rw [hga] at h
            rw [occursF_succ hga]
            cases b2 with
            | true => exact h
            | false => exact ih h

theorem occursF_le {n n' : Nat} (hn : n ≤ n') {v x : FTerm} {s : Subst}
    {b : Bool} (h : occursF n v x s = some b) : occursF n' v x s = some b := by
  induction hn with
  | refl => exact h
  | step _ ih => exact occursF_succ ih

theorem substituteLF_le {m m' : Nat} (hm : m ≤ m') {ts us : List FTerm} {s : Subst}
    (h : substituteLF m ts s = some us) : substituteLF m' ts s = some us :=
  optMap_mono (fun _ _ hu => substituteF_le hm hu) h

/-! ### Normalization via `substitute`: convergence-style specifications -/

theorem normO_unique {s : Subst} {t u u' : FTerm} (h : NormO s t u)
    (h' : NormO s t u') : u = u' := by
  obtain ⟨m, hm⟩ := h
  obtain ⟨m', hm'⟩ := h'
  have h1 := substituteF_le (Nat.le_max_left m m') hm
  have h2 := substituteF_le (Nat.le_max_right m m') hm'
  exact Option.some.inj (h1.symm.trans h2)

theorem normO_chase {s : Subst} {t v : FTerm} (hl : slookup s t = some v)
    {u : FTerm} : NormO s t u ↔ NormO s v u := by
  constructor
  · rintro ⟨m, hm⟩
    cases m with
    | zero => simp [substituteF] at hm
    | succ m =>
      rw [substituteF, hl] at hm
      exact ⟨m, hm⟩
  · rintro ⟨m, hm⟩
    exact ⟨m + 1, by rw [substituteF, hl]; exact hm⟩

theorem normO_nokey_term {s : Subst} {nm : String}
    (hl : slookup s (.term nm) = none) : NormO s (.term nm) (.term nm) :=
  ⟨1, by rw [substituteF, hl]; rfl⟩

theorem normO_func {s : Subst} {f : String} {args : List FTerm}
    (hl : slookup s (.func f args) = none) {u : FTerm} :
    NormO s (.func f args) u ↔ ∃ us, NormLO s args us ∧ u = .func f us := by
  constructor
  · rintro ⟨m, hm⟩
    cases m with
    | zero => simp [substituteF] at hm
    | succ m =>
      rw [substituteF, hl] at hm
      replace hm : (optMap (fun a => substituteF m a s) args).map
          (fun us => FTerm.func f us) = some u := hm
      cases hmap : optMap (fun a => substituteF m a s) args with
      | none => rw [hmap] at hm; exact absurd hm (by simp)
      | some us =>
        rw [hmap] at hm
        exact ⟨us, ⟨m, hmap⟩, (Option.some.inj hm).symm⟩
  · rintro ⟨us, ⟨m, hmap⟩, rfl⟩
    replace hmap : optMap (fun a => substituteF m a s) args = some us := hmap
    refine ⟨m + 1, ?_⟩
    rw [substituteF, hl]
    show (optMap (fun a => substituteF m a s) args).map
        (fun us => FTerm.func f us) = some (FTerm.func f us)
    rw [hmap]
    rfl

theorem normLO_nil {s : Subst} : NormLO s [] [] := ⟨0, rfl⟩

theorem normLO_cons {s : Subst} {t : FTerm} {ts us : List FTerm} :
    NormLO s (t :: ts) us ↔
      ∃ u us2, NormO s t u ∧ NormLO s ts us2 ∧ us = u :: us2 := by
  constructor
  · rintro ⟨m, hm⟩
    obtain ⟨u, us2, hu, hus2, rfl⟩ := optMap_cons hm
    exact ⟨u, us2, ⟨m, hu⟩, ⟨m, hus2⟩, rfl⟩
  · rintro ⟨u, us2, ⟨m1, h1⟩, ⟨m2, h2⟩, rfl⟩
    refine ⟨max m1 m2, ?_⟩
    exact optMap_build (substituteF_le (Nat.le_max_left m1 m2) h1)
      (substituteLF_le (Nat.le_max_right m1 m2) h2)

theorem normLO_of_conv {s : Subst} :
    ∀ {ts : List FTerm}, (∀ t ∈ ts, Converges s t) → ∃ us, NormLO s ts us
  | [], _ => ⟨[], normLO_nil⟩
  | t :: ts, h => by
    obtain ⟨u, hu⟩ := h t (by simp)
    obtain ⟨us, hus⟩ := normLO_of_conv (fun a ha => h a (List.mem_cons_of_mem _ ha))
    exact ⟨u :: us, normLO_cons.mpr ⟨u, us, hu, hus, rfl⟩⟩

/-! ### The occurs-check as a freshness certificate -/

theorem occFalse_ne {s : Subst} {v t : FTerm} (h : OccFalse s v t) : v ≠ t := by
  obtain ⟨k, hk⟩ := h
  cases k with
  | zero => simp [occursF] at hk
  | succ k =>
    rw [occursF] at hk
    unfold occursStep at hk
    by_cases hv : v = t
    · rw [if_pos hv] at hk; simp at hk
    · exact hv

theorem occFalse_term_bound {s : Subst} {v w : FTerm} {nm : String}
    (hl : slookup s (.term nm) = some w) (h : OccFalse s v (.term nm)) :
    OccFalse s v w := by
  obtain ⟨k, hk⟩ := h
  have hne : v ≠ FTerm.term nm := occFalse_ne ⟨k, hk⟩
  cases k with
  | zero => simp [occursF] at hk
  | succ k =>
    rw [occursF] at hk
    unfold occursStep at hk
    rw [if_neg hne, hl] at hk
    exact ⟨k, hk⟩

theorem occFalse_func {s : Subst} {v : FTerm} {f : String} {args : List FTerm}
    (h : OccFalse s v (.func f args)) : ∀ a ∈ args, OccFalse s v a := by
  obtain ⟨k, hk⟩ := h
  have hne : v ≠ FTerm.func f args := occFalse_ne ⟨k, hk⟩
  cases k with
  | zero => simp [occursF] at hk
  | succ k =>
    rw [occursF] at hk
    unfold occursStep at hk
    rw [if_neg hne] at hk
    replace hk : anyOpt (fun a => occursF k v a s) args = some false := hk
    exact fun a ha => ⟨k, anyOpt_false hk a ha⟩

/-! ### Substitutions with variable keys, and acyclicity -/

theorem keysVar_cons {s : Subst} {v x : FTerm} (hk : KeysVar s)
    (hv : is_variable v = true) : KeysVar ((v, x) :: s) := by
  intro p hp
  rcases List.mem_cons.mp hp with rfl | hp2
  · exact hv
  · exact hk p hp2

theorem slookup_func_none {s : Subst} (hk : KeysVar s) {f : String}
    {args : List FTerm} : slookup s (.func f args) = none := by
  induction s with
  | nil => rfl
  | cons p rest ih =>
    obtain ⟨k, w⟩ := p
    have hkv : is_variable k = true := hk (k, w) (by simp)
    have hne : k ≠ FTerm.func f args := by
      intro he
      rw [he] at hkv
      simp [is_variable] at hkv
    rw [slookup_cons_ne hne]
    exact ih (fun p hp => hk p (by simp [hp]))

mutual
theorem acyclic_conv {s : Subst} (hs : Acyclic s) : ∀ t : FTerm, Converges s t
  | .term nm => by
    cases hl : slookup s (.term nm) with
    | some w =>
      obtain ⟨u, hu⟩ := hs _ (slookup_mem hl)
      exact ⟨u, (normO_chase hl).mpr hu⟩
    | none => exact ⟨_, normO_nokey_term hl⟩
  | .func f args => by
    cases hl : slookup s (.func f args) with
    | some w =>
      obtain ⟨u, hu⟩ := hs _ (slookup_mem hl)
      exact ⟨u, (normO_chase hl).mpr hu⟩
    | none =>
      obtain ⟨us, hus⟩ := acyclic_convL hs args
      exact ⟨.func f us, (normO_func hl).mpr ⟨us, hus, rfl⟩⟩

theorem acyclic_convL {s : Subst} (hs : Acyclic s) :
    ∀ ts : List FTerm, ∃ us, NormLO s ts us
  | [] => ⟨[], normLO_nil⟩
  | t :: ts => by
    obtain ⟨u, hu⟩ := acyclic_conv hs t
    obtain ⟨us, hus⟩ := acyclic_convL hs ts
    exact ⟨u :: us, normLO_cons.mpr ⟨u, us, hu, hus, rfl⟩⟩
end

/-- A binding certified fresh by the occurs-check does not change the
result of `substitute` on a term the variable does not occur in. -/
theorem substituteF_fresh {s : Subst} {v x : FTerm} (hk : KeysVar s) :
    ∀ (m : Nat) (t : FTerm), OccFalse s v t →
      substituteF m t ((v, x) :: s) = substituteF m t s
  | 0, _, _ => rfl
  | m+1, t, hocc => by
    have hne : v ≠ t := occFalse_ne hocc
    rw [substituteF, substituteF, slookup_cons_ne hne]
    cases hl : slookup s t with
    | some w =>
      have hmem := slookup_mem hl
      have hkv : is_variable t = true := hk (t, w) hmem
      cases t with
      | func f args => simp [is_variable] at hkv
      | term nm =>
        exact substituteF_fresh hk m w (occFalse_term_bound hl hocc)
    | none =>
      cases t with
      | term nm => rfl
      | func f args =>
        show (optMap (fun a => substituteF m a ((v, x) :: s)) args).map
            (fun us => FTerm.func f us) =
          (optMap (fun a => substituteF m a s) args).map (fun us => FTerm.func f us)
        rw [optMap_congr (fun a ha => substituteF_fresh hk m a (occFalse_func hocc a ha))]

/-- Adding a fresh, occurs-check-certified binding preserves convergence of
`substitute` on any term that already converged. -/
theorem converges_extend_one {s : Subst} {v x : FTerm} (hk : KeysVar s)
    (hv : slookup s v = none) (hxc : Converges ((v, x) :: s) v) :
    ∀ (m : Nat) (t u : FTerm), substituteF m t s = some u →
      Converges ((v, x) :: s) t
  | 0, t, u, h => by simp [substituteF] at h
  | m+1, t, u, h => by
    rw [substituteF] at h
    cases hl : slookup s t with
    | some w =>
      rw [hl] at h
      have hne : t ≠ v := by
        intro he
        rw [he, hv] at hl
        exact absurd hl (by simp)
      have hlk : slookup ((v, x) :: s) t = some w := by
        rw [slookup_cons_ne (Ne.symm hne)]
        exact hl
      obtain ⟨u2, hu2⟩ := converges_extend_one hk hv hxc m w u h
      exact ⟨u2, (normO_chase hlk).mpr hu2⟩
    | none =>
      rw [hl] at h
      by_cases hveq : t = v
      · subst hveq
        exact hxc
      · have hlk : slookup ((v, x) :: s) t = none := by
          rw [slookup_cons_ne (Ne.symm hveq)]
          exact hl
        cases t with
        | term nm => exact ⟨_, normO_nokey_term hlk⟩
        | func f args =>
          replace h : (optMap (fun a => substituteF m a s) args).map
              (fun us => FTerm.func f us) = some u := h
          cases hmap : optMap (fun a => substituteF m a s) args with
          | none => rw [hmap] at h; exact absurd h (by simp)
          | some us =>
            have hconvs : ∀ a ∈ args, Converges ((v, x) :: s) a := by
              intro a ha
              obtain ⟨ua, _, hua⟩ := optMap_mem hmap a ha
              exact converges_extend_one hk hv hxc m a ua hua
            obtain ⟨ws, hws⟩ := normLO_of_conv hconvs
            exact ⟨.func f ws, (normO_func hlk).mpr ⟨ws, hws, rfl⟩⟩

/-- The occurs-check preserves acyclicity: extending an acyclic
substitution with a certified-fresh binding keeps it acyclic. -/
theorem acyclic_extend {s : Subst} {v x : FTerm} (hk : KeysVar s)
    (hs : Acyclic s) (hv : slookup s v = none) (hocc : OccFalse s v x) :
    Acyclic ((v, x) :: s) := by
  have hxconv : Converges ((v, x) :: s) x := by
    obtain ⟨u, m, hm⟩ := acyclic_conv hs x
    exact ⟨u, m, by rw [substituteF_fresh hk m x hocc]; exact hm⟩
  have hvconv : Converges ((v, x) :: s) v := by
    obtain ⟨u, hu⟩ := hxconv
    exact ⟨u, (normO_chase slookup_cons_self).mpr hu⟩
  intro p hp
  rcases List.mem_cons.mp hp with rfl | hp2
  · exact hxconv
  · obtain ⟨u, m, hm⟩ := hs p hp2
    exact converges_extend_one hk hv hvconv m p.2 u hm

/-! ### Extension of substitutions -/

theorem extends_refl (s : Subst) : Extends s s := fun _ _ h => h

theorem extends_trans {s1 s2 s3 : Subst} (h1 : Extends s1 s2)
    (h2 : Extends s2 s3) : Extends s1 s3 :=
  fun k v h => h2 k v (h1 k v h)

theorem extends_cons {s : Subst} {v x : FTerm} (hv : slookup s v = none) :
    Extends s ((v, x) :: s) := by
  intro k w h
  have hne : v ≠ k := by
    intro he
    rw [he] at hv
    rw [hv] at h
    exact absurd h (by simp)
  rw [slookup_cons_ne hne]
  exact h

theorem optMap_forall₂ {g : FTerm → Option FTerm} :
    ∀ {ts us : List FTerm}, optMap g ts = some us →
      List.Forall₂ (fun t u => g t = some u) ts us
  | [], us, h => by
    replace h : some ([] : List FTerm) = some us := h
    rw [← Option.some.inj h]
    exact List.Forall₂.nil
  | t :: ts, us, h => by
    obtain ⟨u, us2, hu, hus2, rfl⟩ := optMap_cons h
    exact List.Forall₂.cons hu (optMap_forall₂ hus2)

theorem normLO_forall₂ {s : Subst} :
    ∀ {ts us : List FTerm}, List.Forall₂ (NormO s) ts us → NormLO s ts us := by
  intro ts us h
  induction h with
  | nil => exact normLO_nil
  | cons hu _ ih => exact normLO_cons.mpr ⟨_, _, hu, ih, rfl⟩

theorem normLO_to_forall₂ {s : Subst} :
    ∀ {ts us : List FTerm}, NormLO s ts us → List.Forall₂ (NormO s) ts us
  | [], us, h => by
    obtain ⟨m, hm⟩ := h
    replace hm : some ([] : List FTerm) = some us := hm
    rw [← Option.some.inj hm]
    exact List.Forall₂.nil
  | t :: ts, us, h => by
    obtain ⟨u, us2, hu, hus2, rfl⟩ := normLO_cons.mp h
    exact List.Forall₂.cons hu (normLO_to_forall₂ hus2)

theorem forall₂_compose {α β γ : Type} {R : α → β → Prop} {S : β → γ → Prop}
    {T : α → γ → Prop} (h : ∀ a b c, R a b → S b c → T a c) :
    ∀ {l1 : List α} {l2 : List β} {l3 : List γ},
      List.Forall₂ R l1 l2 → List.Forall₂ S l2 l3 → List.Forall₂ T l1 l3 := by
  intro l1 l2 l3 h12 h23
  induction h12 generalizing l3 with
  | nil =>
    cases h23
    exact List.Forall₂.nil
  | cons hab _ ih =>
    cases h23 with
    | cons hbc h23rest => exact List.Forall₂.cons (h _ _ _ hab hbc) (ih h23rest)

/-- Normalizing under an extended substitution factors through the normal
form under the smaller one: if `substitute` under `s` sends `t` to `u`,
then under any variable-keyed extension `s2`, `t` and `u` normalize alike. -/
theorem normO_extend {s s2 : Subst} (hext : Extends s s2) (hk2 : KeysVar s2) :
    ∀ (m : Nat) (t u : FTerm), substituteF m t s = some u →
      ∀ w, NormO s2 u w → NormO s2 t w
  | 0, t, u, h => by simp [substituteF] at h
  | m+1, t, u, h => by
    intro w hw
    rw [substituteF] at h
    cases hl : slookup s t with
    | some v =>
      rw [hl] at h
      exact (normO_chase (hext t v hl)).mpr (normO_extend hext hk2 m v u h w hw)
    | none =>
      rw [hl] at h
      cases t with
      | term nm =>
        replace h : some (FTerm.term nm) = some u := h
        rw [← Option.some.inj h] at hw
        exact hw
      | func f args =>
        replace h : (optMap (fun a => substituteF m a s) args).map
            (fun us => FTerm.func f us) = some u := h
        cases hmap : optMap (fun a => substituteF m a s) args with
        | none => rw [hmap] at h; exact absurd h (by simp)
        | some us =>
          rw [hmap] at h
          rw [← Option.some.inj h] at hw
          obtain ⟨ws, hws, rfl⟩ := (normO_func (slookup_func_none hk2)).mp hw
          have hf1 := optMap_forall₂ hmap
          have hf2 := normLO_to_forall₂ hws
          have hf3 : List.Forall₂ (NormO s2) args ws :=
            forall₂_compose
              (fun a b c hab hbc => normO_extend hext hk2 m a b hab c hbc) hf1 hf2
          exact (normO_func (slookup_func_none hk2)).mpr ⟨ws, normLO_forall₂ hf3, rfl⟩

/-! ### Common normal forms (unifiedness under a substitution) -/

theorem equ_symm {s : Subst} {x y : FTerm} (h : EqU s x y) : EqU s y x := by
  obtain ⟨u, h1, h2⟩ := h
  exact ⟨u, h2, h1⟩

theorem equ_extend {s s2 : Subst} (hext : Extends s s2) (hk2 : KeysVar s2)
    (ha2 : Acyclic s2) {x y : FTerm} (h : EqU s x y) : EqU s2 x y := by
  obtain ⟨u, ⟨m1, h1⟩, ⟨m2, h2⟩⟩ := h
  obtain ⟨w, hw⟩ := acyclic_conv ha2 u
  exact ⟨w, normO_extend hext hk2 m1 x u h1 w hw,
    normO_extend hext hk2 m2 y u h2 w hw⟩

theorem normLO_extend {s s2 : Subst} (hext : Extends s s2) (hk2 : KeysVar s2)
    {m : Nat} {ts us : List FTerm} (h : substituteLF m ts s = some us)
    {ws : List FTerm} (hws : NormLO s2 us ws) : NormLO s2 ts ws := by
  have hf1 := optMap_forall₂ h
  have hf2 := normLO_to_forall₂ hws
  exact normLO_forall₂ (forall₂_compose
    (fun a b c hab hbc => normO_extend hext hk2 m a b hab c hbc) hf1 hf2)

theorem equl_extend {s s2 : Subst} (hext : Extends s s2) (hk2 : KeysVar s2)
    (ha2 : Acyclic s2) {xs ys : List FTerm} (h : EqUL s xs ys) : EqUL s2 xs ys := by
  obtain ⟨us, ⟨m1, h1⟩, ⟨m2, h2⟩⟩ := h
  obtain ⟨ws, hws⟩ := acyclic_convL ha2 us
  exact ⟨ws, normLO_extend hext hk2 h1 hws, normLO_extend hext hk2 h2 hws⟩

/-! ### Unification extends its substitution and keeps keys variable -/

theorem unify_varStep_ext {g : FTerm → FTerm → Subst → Option (Option Subst)}
    {occ : FTerm → FTerm → Subst → Option Bool}
    (hg : ∀ a b s2 σ2, g a b s2 = some (some σ2) →
      Extends s2 σ2 ∧ (KeysVar s2 → KeysVar σ2))
    {v x : FTerm} {s σ : Subst} (hv : is_variable v = true)
    (h : unify_varStep g occ v x s = some (some σ)) :
    Extends s σ ∧ (KeysVar s → KeysVar σ) := by
  unfold unify_varStep at h
  cases h1 : slookup s v with
  | some w =>
    rw [h1] at h
    exact hg _ _ _ _ h
  | none =>
    rw [h1] at h
    cases h2 : slookup s x with
    | some w =>
      rw [h2] at h
      exact hg _ _ _ _ h
    | none =>
      rw [h2] at h
      cases h3 : occ v x s with
      | none => rw [h3] at h; exact absurd h (by simp)
      | some b =>
        rw [h3] at h
        cases b with
        | true => exact absurd h (by simp)
        | false =>
          have hσ : (v, x) :: s = σ := by simpa using h
          rw [← hσ]
          exact ⟨extends_cons h1, fun hks => keysVar_cons hks hv⟩

theorem foldUnify_ext {g : FTerm → FTerm → Subst → Option (Option Subst)}
    (hg : ∀ a b s2 σ2, g a b s2 = some (some σ2) →
      Extends s2 σ2 ∧ (KeysVar s2 → KeysVar σ2)) :
    ∀ {xs ys : List FTerm} {s σ : Subst},
      foldUnify g xs ys s = some (some σ) →
      Extends s σ ∧ (KeysVar s → KeysVar σ)
  | [], [], s, σ, h => by
    have hσ : s = σ := by simpa [foldUnify] using h
    rw [← hσ]
    exact ⟨extends_refl s, fun hks => hks⟩
  | [], _ :: _, s, σ, h => by simp [foldUnify] at h
  | _ :: _, [], s, σ, h => by simp [foldUnify] at h
  | x :: xs, y :: ys, s, σ, h => by
    rw [foldUnify] at h
    cases h1 : g x y s with
    | none => rw [h1] at h; exact absurd h (by simp)
    | some o =>
      rw [h1] at h
      cases o with
      | none => exact absurd h (by simp)
      | some s2 =>
        obtain ⟨he1, hk1⟩ := hg _ _ _ _ h1
        obtain ⟨he2, hk2⟩ := foldUnify_ext hg h
        exact ⟨extends_trans he1 he2, fun hks => hk2 (hk1 hks)⟩

theorem unifyStep_ext {g : FTerm → FTerm → Subst → Option (Option Subst)}
    {occ : FTerm → FTerm → Subst → Option Bool}
    (hg : ∀ a b s2 σ2, g a b s2 = some (some σ2) →
      Extends s2 σ2 ∧ (KeysVar s2 → KeysVar σ2))
    {x y : FTerm} {s σ : Subst}
    (h : unifyStep g occ x y s = some (some σ)) :
    Extends s σ ∧ (KeysVar s → KeysVar σ) := by
  unfold unifyStep at h
  by_cases hxy : x = y
  · rw [if_pos hxy] at h
    have hσ : s = σ := by simpa using h
    rw [← hσ]
    exact ⟨extends_refl s, fun hks => hks⟩
  · rw [if_neg hxy] at h
    by_cases hvx : is_variable x = true
    · rw [if_pos hvx] at h
      exact unify_varStep_ext hg hvx h
    · rw [if_neg hvx] at h
      by_cases hvy : is_variable y = true
      · rw [if_pos hvy] at h
        exact unify_varStep_ext hg hvy h
      · rw [if_neg hvy] at h
        cases x with
        | term nx => cases y <;> exact absurd h (by simp)
        | func f xargs =>
          cases y with
          | term ny => exact absurd h (by simp)
          | func f2 yargs =>
            replace h : (if f ≠ f2 ∨ xargs.length ≠ yargs.length then some none
                else unify_listsW g xargs yargs s) = some (some σ) := h
            by_cases hfl : f ≠ f2 ∨ xargs.length ≠ yargs.length
            · rw [if_pos hfl] at h
              exact absurd h (by simp)
            · rw [if_neg hfl] at h
              unfold unify_listsW at h
              by_cases hlen : xargs.length ≠ yargs.length
              · rw [if_pos hlen] at h
                exact absurd h (by simp)
              · rw [if_neg hlen] at h
                exact foldUnify_ext hg h

theorem unify_ext : ∀ (n : Nat) {x y : FTerm} {s σ : Subst},
    unifyF n x y s = some (some σ) → Extends s σ ∧ (KeysVar s → KeysVar σ)
  | 0, x, y, s, σ, h => by simp [unifyF] at h
  | n+1, x, y, s, σ, h => by
    rw [unifyF] at h
    exact unifyStep_ext (fun a b s2 σ2 h2 => unify_ext n h2) h

theorem unifyLists_ext {n : Nat} {xs ys : List FTerm} {s σ : Subst}
    (h : unifyListsF n xs ys s = some (some σ)) :
    Extends s σ ∧ (KeysVar s → KeysVar σ) := by
  unfold unifyListsF unify_listsW at h
  by_cases hlen : xs.length ≠ ys.length
  · rw [if_pos hlen] at h
    exact absurd h (by simp)
  · rw [if_neg hlen] at h
    exact foldUnify_ext (fun a b s2 σ2 h2 => unify_ext n h2) h

theorem unifyTop_ext : ∀ {n : Nat} {xs ys : List FTerm} {s σ : Subst},
    unifyTopF n xs ys s = some (some σ) →
    Extends s σ ∧ (KeysVar s → KeysVar σ) := by
  intro n xs ys s σ h
  cases n with
  | zero => simp [unifyTopF] at h
  | succ n =>
    rw [unifyTopF] at h
    by_cases hxy : xs = ys
    · rw [if_pos hxy] at h
      have hσ : s = σ := by simpa using h
      rw [← hσ]
      exact ⟨extends_refl s, fun hks => hks⟩
    · rw [if_neg hxy] at h
      exact unifyLists_ext h

/-! ### Soundness of unification: the result substitution unifies the inputs -/

theorem unify_varStep_sound {g : FTerm → FTerm → Subst → Option (Option Subst)}
    {occ : FTerm → FTerm → Subst → Option Bool}
    (hg : ∀ a b s2 σ2, g a b s2 = some (some σ2) → KeysVar s2 → Acyclic s2 →
      Acyclic σ2 ∧ EqU σ2 a b)
    (hge : ∀ a b s2 σ2, g a b s2 = some (some σ2) →
      Extends s2 σ2 ∧ (KeysVar s2 → KeysVar σ2))
    (hocc : ∀ a b s2, occ a b s2 = some false → OccFalse s2 a b)
    {v x : FTerm} {s σ : Subst}
    (h : unify_varStep g occ v x s = some (some σ))
    (hks : KeysVar s) (has : Acyclic s) :
    Acyclic σ ∧ EqU σ v x := by
  unfold unify_varStep at h
  cases h1 : slookup s v with
  | some w =>
    rw [h1] at h
    obtain ⟨ha, hequ⟩ := hg _ _ _ _ h hks has
    obtain ⟨hext, _⟩ := hge _ _ _ _ h
    obtain ⟨u, hwu, hxu⟩ := hequ
    exact ⟨ha, u, (normO_chase (hext v w h1)).mpr hwu, hxu⟩
  | none =>
    rw [h1] at h
    cases h2 : slookup s x with
    | some w =>
      rw [h2] at h
      obtain ⟨ha, hequ⟩ := hg _ _ _ _ h hks has
      obtain ⟨hext, _⟩ := hge _ _ _ _ h
      obtain ⟨u, hvu, hwu⟩ := hequ
      exact ⟨ha, u, hvu, (normO_chase (hext x w h2)).mpr hwu⟩
    | none =>
      rw [h2] at h
      cases h3 : occ v x s with
      | none => rw [h3] at h; exact absurd h (by simp)
      | some b =>
        rw [h3] at h
        cases b with
        | true => exact absurd h (by simp)
        | false =>
          have hofalse := hocc _ _ _ h3
          have hσ : (v, x) :: s = σ := by simpa using h
          rw [← hσ]
          have ha2 : Acyclic ((v, x) :: s) := acyclic_extend hks has h1 hofalse
          obtain ⟨u, hu⟩ := acyclic_conv ha2 x
          exact ⟨ha2, u, (normO_chase slookup_cons_self).mpr hu, hu⟩

theorem foldUnify_sound {g : FTerm → FTerm → Subst → Option (Option Subst)}
    (hg : ∀ a b s2 σ2, g a b s2 = some (some σ2) → KeysVar s2 → Acyclic s2 →
      Acyclic σ2 ∧ EqU σ2 a b)
    (hge : ∀ a b s2 σ2, g a b s2 = some (some σ2) →
      Extends s2 σ2 ∧ (KeysVar s2 → KeysVar σ2)) :
    ∀ {xs ys : List FTerm} {s σ : Subst},
      foldUnify g xs ys s = some (some σ) → KeysVar s → Acyclic s →
      Acyclic σ ∧ EqUL σ xs ys
  | [], [], s, σ, h, hks, has => by
    have hσ : s = σ := by simpa [foldUnify] using h
    rw [← hσ]
    exact ⟨has, [], normLO_nil, normLO_nil⟩
  | [], _ :: _, s, σ, h, _, _ => by simp [foldUnify] at h
  | _ :: _, [], s, σ, h, _, _ => by simp [foldUnify] at h
  | x :: xs, y :: ys, s, σ, h, hks, has => by
    rw [foldUnify] at h
    cases h1 : g x y s with
    | none => rw [h1] at h; exact absurd h (by simp)
    | some o =>
      rw [h1] at h
      cases o with
      | none => exact absurd h (by simp)
      | some s2 =>
        obtain ⟨ha2, hequ⟩ := hg _ _ _ _ h1 hks has
        obtain ⟨_, hkf⟩ := hge _ _ _ _ h1
        have hks2 : KeysVar s2 := hkf hks
        obtain ⟨haσ, hequl⟩ := foldUnify_sound hg hge h hks2 ha2
        obtain ⟨hextσ, hkfσ⟩ := foldUnify_ext hge h
        have hkσ : KeysVar σ := hkfσ hks2
        obtain ⟨u, hxu, hyu⟩ := equ_extend hextσ hkσ haσ hequ
        obtain ⟨us, hxs, hys⟩ := hequl
        exact ⟨haσ, u :: us, normLO_cons.mpr ⟨u, us, hxu, hxs, rfl⟩,
          normLO_cons.mpr ⟨u, us, hyu, hys, rfl⟩⟩

theorem unifyStep_sound {g : FTerm → FTerm → Subst → Option (Option Subst)}
    {occ : FTerm → FTerm → Subst → Option Bool}
    (hg : ∀ a b s2 σ2, g a b s2 = some (some σ2) → KeysVar s2 → Acyclic s2 →
      Acyclic σ2 ∧ EqU σ2 a b)
    (hge : ∀ a b s2 σ2, g a b s2 = some (some σ2) →
      Extends s2 σ2 ∧ (KeysVar s2 → KeysVar σ2))
    (hocc : ∀ a b s2, occ a b s2 = some false → OccFalse s2 a b)
    {x y : FTerm} {s σ : Subst}
    (h : unifyStep g occ x y s = some (some σ))
    (hks : KeysVar s) (has : Acyclic s) :
    Acyclic σ ∧ EqU σ x y := by
  unfold unifyStep at h
  by_cases hxy : x = y
  · rw [if_pos hxy] at h
    have hσ : s = σ := by simpa using h
    rw [← hσ, ← hxy]
    obtain ⟨u, hu⟩ := acyclic_conv has x
    exact ⟨has, u, hu, hu⟩
  · rw [if_neg hxy] at h
    by_cases hvx : is_variable x = true
    · rw [if_pos hvx] at h
      exact unify_varStep_sound hg hge hocc h hks has
    · rw [if_neg hvx] at h
      by_cases hvy : is_variable y = true
      · rw [if_pos hvy] at h
        obtain ⟨ha, hequ⟩ := unify_varStep_sound hg hge hocc h hks has
        exact ⟨ha, equ_symm hequ⟩
      · rw [if_neg hvy] at h
        cases x with
        | term nx => cases y <;> exact absurd h (by simp)
        | func f xargs =>
          cases y with
          | term ny => exact absurd h (by simp)
          | func f2 yargs =>
            replace h : (if f ≠ f2 ∨ xargs.length ≠ yargs.length then some none
                else unify_listsW g xargs yargs s) = some (some σ) := h
            by_cases hfl : f ≠ f2 ∨ xargs.length ≠ yargs.length
            · rw [if_pos hfl] at h
              exact absurd h (by simp)
            · rw [if_neg hfl] at h
              push_neg at hfl
              obtain ⟨hf, hlen⟩ := hfl
              unfold unify_listsW at h
              rw [if_neg (by simp [hlen])] at h
              obtain ⟨haσ, hequl⟩ := foldUnify_sound hg hge h hks has
              obtain ⟨_, hkfσ⟩ := foldUnify_ext hge h
              have hkσ : KeysVar σ := hkfσ hks
              obtain ⟨us, hxs, hys⟩ := hequl
              subst hf
              exact ⟨haσ, .func f us,
                (normO_func (slookup_func_none hkσ)).mpr ⟨us, hxs, rfl⟩,
                (normO_func (slookup_func_none hkσ)).mpr ⟨us, hys, rfl⟩⟩

theorem unify_sound : ∀ (n : Nat) {x y : FTerm} {s σ : Subst},
    unifyF n x y s = some (some σ) → KeysVar s → Acyclic s →
    Acyclic σ ∧ EqU σ x y
  | 0, x, y, s, σ, h, _, _ => by simp [unifyF] at h
  | n+1, x, y, s, σ, h, hks, has => by
    rw [unifyF] at h
    exact unifyStep_sound (fun a b s2 σ2 h2 hk2 ha2 => unify_sound n h2 hk2 ha2)
      (fun a b s2 σ2 h2 => unify_ext n h2)
      (fun a b s2 h2 => ⟨n, h2⟩) h hks has

theorem unifyLists_sound {n : Nat} {xs ys : List FTerm} {s σ : Subst}
    (h : unifyListsF n xs ys s = some (some σ)) (hks : KeysVar s)
    (has : Acyclic s) : Acyclic σ ∧ EqUL σ xs ys := by
  unfold unifyListsF unify_listsW at h
  by_cases hlen : xs.length ≠ ys.length
  · rw [if_pos hlen] at h
    exact absurd h (by simp)
  · rw [if_neg hlen] at h
    exact foldUnify_sound (fun a b s2 σ2 h2 hk2 ha2 => unify_sound n h2 hk2 ha2)
      (fun a b s2 σ2 h2 => unify_ext n h2) h hks has

theorem unifyTop_sound {n : Nat} {xs ys : List FTerm} {s σ : Subst}
    (h : unifyTopF n xs ys s = some (some σ)) (hks : KeysVar s)
    (has : Acyclic s) : Acyclic σ ∧ EqUL σ xs ys := by
  cases n with
  | zero => simp [unifyTopF] at h
  | succ n =>
    rw [unifyTopF] at h
    by_cases hxy : xs = ys
    · rw [if_pos hxy] at h
      have hσ : s = σ := by simpa using h
      rw [← hσ, ← hxy]
      obtain ⟨us, hus⟩ := acyclic_convL has xs
      exact ⟨has, us, hus, hus⟩
    · rw [if_neg hxy] at h
      exact unifyLists_sound h hks has

/-- The empty substitution trivially satisfies both invariants. -/
theorem keysVar_nil : KeysVar [] := fun p hp => absurd hp (by simp)

theorem acyclic_nil : Acyclic [] := fun p hp => absurd hp (by simp)

/-! ### Fuel monotonicity of the unification family -/

theorem unify_varStep_mono {g g' : FTerm → FTerm → Subst → Option (Option Subst)}
    {occ occ' : FTerm → FTerm → Subst → Option Bool}
    (hg : ∀ a b s2 r, g a b s2 = some r → g' a b s2 = some r)
    (hocc : ∀ a b s2 bl, occ a b s2 = some bl → occ' a b s2 = some bl)
    {v x : FTerm} {s : Subst} {r : Option Subst}
    (h : unify_varStep g occ v x s = some r) :
    unify_varStep g' occ' v x s = some r := by
  unfold unify_varStep at h ⊢
  cases h1 : slookup s v with
  | some w =>
    rw [h1] at h
    exact hg _ _ _ _ h
  | none =>
    rw [h1] at h
    cases h2 : slookup s x with
    | some w =>
      rw [h2] at h
      exact hg _ _ _ _ h
    | none =>
      rw [h2] at h
      cases h3 : occ v x s with
      | none => rw [h3] at h; exact absurd h (by simp)
      | some b =>
        rw [h3] at h
        rw [hocc _ _ _ _ h3]
        exact h

theorem foldUnify_mono {g g' : FTerm → FTerm → Subst → Option (Option Subst)}
    (hg : ∀ a b s2 r, g a b s2 = some r → g' a b s2 = some r) :
    ∀ {xs ys : List FTerm} {s : Subst} {r : Option Subst},
      foldUnify g xs ys s = some r → foldUnify g' xs ys s = some r
  | [], [], s, r, h => h
  | [], _ :: _, s, r, h => h
  | _ :: _, [], s, r, h => h
  | x :: xs, y :: ys, s, r, h => by
    rw [foldUnify] at h ⊢
    cases h1 : g x y s with
    | none => rw [h1] at h; exact absurd h (by simp)
    | some o =>
      rw [h1] at h
      rw [hg _ _ _ _ h1]
      cases o with
      | none => exact h
      | some s2 => exact foldUnify_mono hg h

theorem unifyStep_mono {g g' : FTerm → FTerm → Subst → Option (Option Subst)}
    {occ occ' : FTerm → FTerm → Subst → Option Bool}
    (hg : ∀ a b s2 r, g a b s2 = some r → g' a b s2 = some r)
    (hocc : ∀ a b s2 bl, occ a b s2 = some bl → occ' a b s2 = some bl)
    {x y : FTerm} {s : Subst} {r : Option Subst}
    (h : unifyStep g occ x y s = some r) :
    unifyStep g' occ' x y s = some r := by
  unfold unifyStep at h ⊢
  by_cases hxy : x = y
  · rw [if_pos hxy] at h ⊢; exact h
  · rw [if_neg hxy] at h ⊢
    by_cases hvx : is_variable x = true
    · rw [if_pos hvx] at h ⊢
      exact unify_varStep_mono hg hocc h
    · rw [if_neg hvx] at h ⊢
      by_cases hvy : is_variable y = true
      · rw [if_pos hvy] at h ⊢
        exact unify_varStep_mono hg hocc h
      · rw [if_neg hvy] at h ⊢
        cases x with
        | term nx => cases y <;> exact h
        | func f xargs =>
          cases y with
          | term ny => exact h
          | func f2 yargs =>
            replace h : (if f ≠ f2 ∨ xargs.length ≠ yargs.length then some none
                else unify_listsW g xargs yargs s) = some r := h
            show (if f ≠ f2 ∨ xargs.length ≠ yargs.length then some none
                else unify_listsW g' xargs yargs s) = some r
            by_cases hfl : f ≠ f2 ∨ xargs.length ≠ yargs.length
            · rw [if_pos hfl] at h ⊢; exact h
            · rw [if_neg hfl] at h ⊢
              unfold unify_listsW at h ⊢
              by_cases hlen : xargs.length ≠ yargs.length
              · rw [if_pos hlen] at h ⊢; exact h
              · rw [if_neg hlen] at h ⊢
                exact foldUnify_mono hg h

theorem unifyF_succ :
    ∀ {n : Nat} {x y : FTerm} {s : Subst} {r : Option Subst},
      unifyF n x y s = some r → unifyF (n + 1) x y s = some r
  | 0, x, y, s, r, h => by simp [unifyF] at h
  | n+1, x, y, s, r, h => by
    rw [unifyF] at h ⊢
    exact unifyStep_mono (fun a b s2 r2 h2 => unifyF_succ h2)
      (fun a b s2 bl h2 => occursF_succ h2) h

theorem unifyF_le {n n' : Nat} (hn : n ≤ n') {x y : FTerm} {s : Subst}
    {r : Option Subst} (h : unifyF n x y s = some r) : unifyF n' x y s = some r := by
  induction hn with
  | refl => exact h
  | step _ ih => exact unifyF_succ ih

theorem unifyTopF_le {n n' : Nat} (hn : n ≤ n') {xs ys : List FTerm} {s : Subst}
    {r : Option Subst} (h : unifyTopF n xs ys s = some r) :
    unifyTopF n' xs ys s = some r := by
  induction hn with
  | refl => exact h
  | step _ ih =>
    rename_i m _
    cases m with
    | zero => simp [unifyTopF] at ih
    | succ m =>
      rw [unifyTopF] at ih ⊢
      by_cases hxy : xs = ys
      · rw [if_pos hxy] at ih ⊢; exact ih
      · rw [if_neg hxy] at ih ⊢
        unfold unifyListsF unify_listsW at ih ⊢
        by_cases hlen : xs.length ≠ ys.length
        · rw [if_pos hlen] at ih ⊢; exact ih
        · rw [if_neg hlen] at ih ⊢
          exact foldUnify_mono (fun a b s2 r2 h2 => unifyF_succ h2) ih

/-! ### The saturation round: empty-clause detection -/

theorem scanRes_cont_no_empty :
    ∀ {rs derived new d2 n2 : List Clause},
      scanRes rs derived new = .cont d2 n2 → ∀ c ∈ rs, c.literals ≠ []
  | [], _, _, _, _, _, c, hc => absurd hc (by simp)
  | r :: rest, derived, new, d2, n2, h, c, hc => by
    rw [scanRes] at h
    by_cases hr : r.literals = []
    · rw [if_pos hr] at h
      exact absurd h (by simp)
    · rw [if_neg hr] at h
      rcases List.mem_cons.mp hc with rfl | hc2
      · exact hr
      · by_cases hd : containsClause derived r = true
        · rw [if_pos hd] at h
          exact scanRes_cont_no_empty h c hc2
        · rw [if_neg hd] at h
          exact scanRes_cont_no_empty h c hc2

theorem roundF_empty_of_mem :
    ∀ {pairs : List (Clause × Clause)} {uf : Nat} {derived new : List Clause}
      {r : RoundOut}, roundF uf pairs derived new = some r →
      (∃ p ∈ pairs, ∃ rs, resolveF uf p.1 p.2 = some rs ∧
        ∃ c ∈ rs, c.literals = ([] : List Pred)) →
      ∃ d, r = .foundEmpty d
  | [], _, _, _, _, _, hmem => by
    obtain ⟨p, hp, _⟩ := hmem
    exact absurd hp (by simp)
  | (ci, cj) :: rest, uf, derived, new, r, h, hmem => by
    rw [roundF] at h
    cases hres : resolveF uf ci cj with
    | none => rw [hres] at h; exact absurd h (by simp)
    | some rs0 =>
      rw [hres] at h
      replace h : (match scanRes rs0 derived new with
        | ScanOut.empty d2 => some (RoundOut.foundEmpty d2)
        | ScanOut.cont d2 n2 => roundF uf rest d2 n2) = some r := h
      cases hscan : scanRes rs0 derived new with
      | empty d =>
        rw [hscan] at h
        exact ⟨d, (Option.some.inj h).symm⟩
      | cont d2 n2 =>
        rw [hscan] at h
        obtain ⟨p, hp, rs, hprs, c, hc, hce⟩ := hmem
        rcases List.mem_cons.mp hp with rfl | hp2
        · rw [hres] at hprs
          rw [← Option.some.inj hprs] at hc
          exact absurd hce (scanRes_cont_no_empty hscan c hc)
        · exact roundF_empty_of_mem h ⟨p, hp2, rs, hprs, c, hc, hce⟩

theorem resolutionS_kb :
    ∀ (uf rf : Nat) (st : RState) (v : String) (st2 : RState),
      resolutionS uf rf st = some (v, st2) → st2.kb = st.kb := by
  intro uf rf
  induction rf with
  | zero => intro st v st2 h; simp [resolutionS] at h
  | succ rf ih =>
    intro st v st2 h
    rw [resolutionS] at h
    cases hr : roundF uf (pairsOf st.clauses) st.derived [] with
    | none => rw [hr] at h; exact absurd h (by simp)
    | some ro =>
      rw [hr] at h
      cases ro with
      | foundEmpty d =>
        have h2 := Option.some.inj h
        rw [Prod.mk.injEq] at h2
        rw [← h2.2]
      | done d n =>
        replace h : (if n = [] then some ("yes", RState.mk st.kb st.clauses d)
            else resolutionS uf rf (RState.mk st.kb (st.clauses ++ n) d)) =
            some (v, st2) := h
        by_cases hn : n = []
        · rw [if_pos hn] at h
          have h2 := Option.some.inj h
          rw [Prod.mk.injEq] at h2
          rw [← h2.2]
        · rw [if_neg hn] at h
          exact ih (RState.mk st.kb (st.clauses ++ n) d) v st2 h

/-! ### Valuation lemmas -/

theorem applyVL_length {θ : String → FTerm} :
    ∀ {ts : List FTerm}, (applyVL θ ts).length = ts.length
  | [] => rfl
  | _ :: ts => by rw [applyVL, List.length_cons, List.length_cons, applyVL_length]

theorem sizeT_pos : ∀ (t : FTerm), 1 ≤ sizeT t
  | .term _ => le_refl 1
  | .func _ _ => by rw [sizeT]; omega

theorem sizeTL_mem {θ : String → FTerm} :
    ∀ {ts : List FTerm} {a : FTerm}, a ∈ ts →
      sizeT (applyV θ a) ≤ sizeTL (applyVL θ ts)
  | [], a, ha => absurd ha (by simp)
  | t :: ts, a, ha => by
    rw [applyVL, sizeTL]
    rcases List.mem_cons.mp ha with rfl | ha2
    · omega
    · have := sizeTL_mem (θ := θ) ha2
      omega

theorem occurs_true_unbound_term {k : Nat} {v : FTerm} {nm : String} {s : Subst}
    (h : occursF k v (.term nm) s = some true)
    (hl : slookup s (.term nm) = none) : v = FTerm.term nm := by
  cases k with
  | zero => simp [occursF] at h
  | succ k =>
    rw [occursF] at h
    unfold occursStep at h
    by_cases hv : v = FTerm.term nm
    · exact hv
    · rw [if_neg hv] at h
      rw [hl] at h
      exact absurd h (by simp)

theorem occurs_true_size :
    ∀ {k : Nat} {v t : FTerm} {s : Subst} {θ : String → FTerm},
      occursF k v t s = some true → Models θ s →
      v = t ∨ sizeT (applyV θ v) < sizeT (applyV θ t) ∨
        (applyV θ v = applyV θ t ∧ ∃ nm, t = FTerm.term nm)
  | 0, v, t, s, θ, h, _ => by simp [occursF] at h
  | k+1, v, t, s, θ, h, hm => by
    rw [occursF] at h
    unfold occursStep at h
    by_cases hv : v = t
    · exact Or.inl hv
    · rw [if_neg hv] at h
      cases t with
      | term nm =>
        cases hl : slookup s (FTerm.term nm) with
        | some w =>
          rw [hl] at h
          have heq : applyV θ (FTerm.term nm) = applyV θ w :=
            hm _ (slookup_mem hl)
          rcases occurs_true_size h hm with rfl | hlt | ⟨hae, _⟩
          · exact Or.inr (Or.inr ⟨heq.symm, nm, rfl⟩)
          · rw [← heq] at hlt
            exact Or.inr (Or.inl hlt)
          · rw [← heq] at hae
            exact Or.inr (Or.inr ⟨hae, nm, rfl⟩)
        | none =>
          rw [hl] at h
          exact absurd h (by simp)
      | func f args =>
        replace h : anyOpt (fun a => occursF k v a s) args = some true := h
        have hex : ∃ a ∈ args, occursF k v a s = some true := by
          clear hv
          induction args with
          | nil => simp [anyOpt] at h
          | cons a as ih =>
            rw [anyOpt] at h
            cases hga : occursF k v a s with
            | none => rw [hga] at h; exact absurd h (by simp)
            | some b =>
              rw [hga] at h
              cases b with
              | true => exact ⟨a, by simp, hga⟩
              | false =>
                obtain ⟨a2, ha2, hocc2⟩ := ih h
                exact ⟨a2, by simp [ha2], hocc2⟩
        obtain ⟨a, ha, hocc⟩ := hex
        have hbound : sizeT (applyV θ a) ≤ sizeTL (applyVL θ args) := sizeTL_mem ha
        have hfsize : sizeT (applyV θ (FTerm.func f args)) = 1 + sizeTL (applyVL θ args) := by
          rw [applyV, sizeT]
        refine Or.inr (Or.inl ?_)
        rcases occurs_true_size hocc hm with rfl | hlt | ⟨hae, _⟩
        · omega
        · omega
        · rw [hae]
          omega

/-! ### Completeness: a converged unification never wrongly fails -/

theorem unify_varStep_complete {g : FTerm → FTerm → Subst → Option (Option Subst)}
    {occ : FTerm → FTerm → Subst → Option Bool} {θ : String → FTerm}
    (hg : ∀ a b s2 r, g a b s2 = some r → Models θ s2 →
      applyV θ a = applyV θ b → ∃ σ, r = some σ ∧ Models θ σ)
    (hocc : ∀ a b s2 bl, occ a b s2 = some bl → ∃ k, occursF k a b s2 = some bl)
    {v x : FTerm} {s : Subst} {r : Option Subst} (hne : v ≠ x)
    (h : unify_varStep g occ v x s = some r)
    (hm : Models θ s) (hu : applyV θ v = applyV θ x) :
    ∃ σ, r = some σ ∧ Models θ σ := by
  unfold unify_varStep at h
  cases h1 : slookup s v with
  | some w =>
    rw [h1] at h
    have heq : applyV θ v = applyV θ w := hm _ (slookup_mem h1)
    exact hg _ _ _ _ h hm (heq.symm.trans hu)
  | none =>
    rw [h1] at h
    cases h2 : slookup s x with
    | some w =>
      rw [h2] at h
      have heq : applyV θ x = applyV θ w := hm _ (slookup_mem h2)
      exact hg _ _ _ _ h hm (hu.trans heq)
    | none =>
      rw [h2] at h
      cases h3 : occ v x s with
      | none => rw [h3] at h; exact absurd h (by simp)
      | some b =>
        rw [h3] at h
        cases b with
        | true =>
          obtain ⟨k, hk⟩ := hocc _ _ _ _ h3
          rcases occurs_true_size hk hm with he | hlt | ⟨_, nm, rfl⟩
          · exact absurd he hne
          · rw [hu] at hlt
            omega
          · exact absurd (occurs_true_unbound_term hk h2) hne
        | false =>
          refine ⟨(v, x) :: s, (Option.some.inj h).symm ▸ rfl, ?_⟩
          intro p hp
          rcases List.mem_cons.mp hp with rfl | hp2
          · exact hu
          · exact hm p hp2

theorem foldUnify_complete {g : FTerm → FTerm → Subst → Option (Option Subst)}
    {θ : String → FTerm}
    (hg : ∀ a b s2 r, g a b s2 = some r → Models θ s2 →
      applyV θ a = applyV θ b → ∃ σ, r = some σ ∧ Models θ σ) :
    ∀ {xs ys : List FTerm} {s : Subst} {r : Option Subst},
      foldUnify g xs ys s = some r → Models θ s →
      applyVL θ xs = applyVL θ ys → ∃ σ, r = some σ ∧ Models θ σ
  | [], [], s, r, h, hm, _ => by
    refine ⟨s, ?_, hm⟩
    have : some (some s) = some r := h
    exact (Option.some.inj this).symm
  | [], b :: bs, s, r, h, hm, hu => by
    rw [applyVL, applyVL] at hu
    exact absurd hu (by simp)
  | a :: as, [], s, r, h, hm, hu => by
    rw [applyVL, applyVL] at hu
    exact absurd hu (by simp)
  | x :: xs, y :: ys, s, r, h, hm, hu => by
    rw [applyVL, applyVL, List.cons.injEq] at hu
    rw [foldUnify] at h
    cases h1 : g x y s with
    | none => rw [h1] at h; exact absurd h (by simp)
    | some o =>
      rw [h1] at h
      obtain ⟨s2, rfl, hm2⟩ := hg _ _ _ _ h1 hm hu.1
      exact foldUnify_complete hg h hm2 hu.2

theorem unifyStep_complete {g : FTerm → FTerm → Subst → Option (Option Subst)}
    {occ : FTerm → FTerm → Subst → Option Bool} {θ : String → FTerm}
    (hg : ∀ a b s2 r, g a b s2 = some r → Models θ s2 →
      applyV θ a = applyV θ b → ∃ σ, r = some σ ∧ Models θ σ)
    (hocc : ∀ a b s2 bl, occ a b s2 = some bl → ∃ k, occursF k a b s2 = some bl)
    {x y : FTerm} {s : Subst} {r : Option Subst}
    (h : unifyStep g occ x y s = some r)
    (hval : ValOK θ) (hm : Models θ s) (hu : applyV θ x = applyV θ y) :
    ∃ σ, r = some σ ∧ Models θ σ := by
  unfold unifyStep at h
  by_cases hxy : x = y
  · rw [if_pos hxy] at h
    refine ⟨s, ?_, hm⟩
    exact (Option.some.inj h).symm
  · rw [if_neg hxy] at h
    by_cases hvx : is_variable x = true
    · rw [if_pos hvx] at h
      exact unify_varStep_complete hg hocc hxy h hm hu
    · rw [if_neg hvx] at h
      by_cases hvy : is_variable y = true
      · rw [if_pos hvy] at h
        obtain ⟨σ, hr, hmσ⟩ :=
          unify_varStep_complete hg hocc (Ne.symm hxy) h hm hu.symm
        exact ⟨σ, hr, hmσ⟩
      · rw [if_neg hvy] at h
        cases x with
        | term nx =>
          have hfix : θ nx = FTerm.term nx := hval nx (by simpa [is_variable] using hvx)
          cases y with
          | term ny =>
            have hfiy : θ ny = FTerm.term ny := hval ny (by simpa [is_variable] using hvy)
            rw [applyV, applyV, hfix, hfiy] at hu
            exact absurd (by rw [hu]) hxy
          | func f yargs =>
            rw [applyV, applyV, hfix] at hu
            exact absurd hu (by simp)
        | func f xargs =>
          cases y with
          | term ny =>
            have hfiy : θ ny = FTerm.term ny := hval ny (by simpa [is_variable] using hvy)
            rw [applyV, applyV, hfiy] at hu
            exact absurd hu (by simp)
          | func f2 yargs =>
            rw [applyV, applyV, FTerm.func.injEq] at hu
            have hlen : xargs.length = yargs.length := by
              have := congrArg List.length hu.2
              rwa [applyVL_length, applyVL_length] at this
            replace h : (if f ≠ f2 ∨ xargs.length ≠ yargs.length then some none
                else unify_listsW g xargs yargs s) = some r := h
            rw [if_neg (by simp [hu.1, hlen])] at h
            unfold unify_listsW at h
            rw [if_neg (by simp [hlen])] at h
            exact foldUnify_complete hg h hm hu.2

theorem unify_complete : ∀ (n : Nat) {x y : FTerm} {s : Subst} {r : Option Subst}
    {θ : String → FTerm}, unifyF n x y s = some r → ValOK θ → Models θ s →
    applyV θ x = applyV θ y → ∃ σ, r = some σ ∧ Models θ σ
  | 0, x, y, s, r, θ, h, _, _, _ => by simp [unifyF] at h
  | n+1, x, y, s, r, θ, h, hval, hm, hu => by
    rw [unifyF] at h
    exact unifyStep_complete
      (fun a b s2 r2 h2 hm2 hu2 => unify_complete n h2 hval hm2 hu2)
      (fun a b s2 bl h2 => ⟨n, h2⟩) h hval hm hu

theorem unifyTop_complete {n : Nat} {xs ys : List FTerm} {s : Subst}
    {r : Option Subst} {θ : String → FTerm}
    (h : unifyTopF n xs ys s = some r) (hval : ValOK θ) (hm : Models θ s)
    (hu : applyVL θ xs = applyVL θ ys) : ∃ σ, r = some σ ∧ Models θ σ := by
  cases n with
  | zero => simp [unifyTopF] at h
  | succ n =>
    rw [unifyTopF] at h
    by_cases hxy : xs = ys
    · rw [if_pos hxy] at h
      refine ⟨s, ?_, hm⟩
      exact (Option.some.inj h).symm
    · rw [if_neg hxy] at h
      have hlen : xs.length = ys.length := by
        have := congrArg List.length hu
        rwa [applyVL_length, applyVL_length] at this
      unfold unifyListsF unify_listsW at h
      rw [if_neg (by simp [hlen])] at h
      exact foldUnify_complete
        (fun a b s2 r2 h2 hm2 hu2 => unify_complete n h2 hval hm2 hu2) h hm hu

/-! ### The substitute call-tree measure -/

theorem cost_pos {s : Subst} {t : FTerm} {w : Nat} (h : Cost s t w) : 1 ≤ w := by
  cases h <;> omega

theorem cost_chase_inv {s : Subst} {t v : FTerm} {w : Nat}
    (hl : slookup s t = some v) (h : Cost s t w) :
    ∃ w2, w = w2 + 1 ∧ Cost s v w2 := by
  cases h with
  | chase hl2 hc =>
    rw [hl] at hl2
    exact ⟨_, rfl, (Option.some.inj hl2) ▸ hc⟩
  | leaf hl2 => rw [hl2] at hl; exact absurd hl (by simp)
  | node hl2 _ => rw [hl2] at hl; exact absurd hl (by simp)

theorem cost_term_unbound_inv {s : Subst} {nm : String} {w : Nat}
    (hl : slookup s (.term nm) = none) (h : Cost s (.term nm) w) : w = 1 := by
  cases h with
  | chase hl2 _ => rw [hl2] at hl; exact absurd hl (by simp)
  | leaf _ => rfl

theorem cost_node_inv {s : Subst} {f : String} {args : List FTerm} {w : Nat}
    (hl : slookup s (.func f args) = none) (h : Cost s (.func f args) w) :
    ∃ w2, w = w2 + 1 ∧ CostL s args w2 := by
  cases h with
  | chase hl2 _ => rw [hl2] at hl; exact absurd hl (by simp)
  | node _ hc => exact ⟨_, rfl, hc⟩

theorem costL_nil_inv {s : Subst} {w : Nat} (h : CostL s [] w) : w = 0 := by
  cases h
  rfl

theorem costL_cons_inv {s : Subst} {t : FTerm} {ts : List FTerm} {w : Nat}
    (h : CostL s (t :: ts) w) :
    ∃ w1 w2, w = w1 + w2 ∧ Cost s t w1 ∧ CostL s ts w2 := by
  cases h with
  | cons h1 h2 => exact ⟨_, _, rfl, h1, h2⟩

theorem cost_det_aux : ∀ (W : Nat),
    (∀ (s : Subst) (t : FTerm) (w w2 : Nat), w ≤ W → Cost s t w → Cost s t w2 →
      w = w2) ∧
    (∀ (s : Subst) (ts : List FTerm) (w w2 : Nat), w ≤ W → CostL s ts w →
      CostL s ts w2 → w = w2) := by
  intro W
  induction W with
  | zero =>
    constructor
    · intro s t w w2 hw hc _
      exact absurd (cost_pos hc) (by omega)
    · intro s ts w w2 hw hc hc2
      cases ts with
      | nil => rw [costL_nil_inv hc, costL_nil_inv hc2]
      | cons t ts =>
        obtain ⟨w1, wr, rfl, h1, _⟩ := costL_cons_inv hc
        exact absurd (cost_pos h1) (by omega)
  | succ W ih =>
    have hterm : ∀ (s : Subst) (t : FTerm) (w w2 : Nat), w ≤ W + 1 → Cost s t w →
        Cost s t w2 → w = w2 := by
      intro s t w w2 hw hc hc2
      cases hl : slookup s t with
      | some v =>
        obtain ⟨wa, rfl, hca⟩ := cost_chase_inv hl hc
        obtain ⟨wb, rfl, hcb⟩ := cost_chase_inv hl hc2
        rw [ih.1 s v wa wb (by omega) hca hcb]
      | none =>
        cases t with
        | term nm => rw [cost_term_unbound_inv hl hc, cost_term_unbound_inv hl hc2]
        | func f args =>
          obtain ⟨wa, rfl, hca⟩ := cost_node_inv hl hc
          obtain ⟨wb, rfl, hcb⟩ := cost_node_inv hl hc2
          rw [ih.2 s args wa wb (by omega) hca hcb]
    refine ⟨hterm, ?_⟩
    intro s ts
    induction ts with
    | nil =>
      intro w w2 _ hc hc2
      rw [costL_nil_inv hc, costL_nil_inv hc2]
    | cons t ts ihts =>
      intro w w2 hw hc hc2
      obtain ⟨wa1, wa2, rfl, ha1, ha2⟩ := costL_cons_inv hc
      obtain ⟨wb1, wb2, rfl, hb1, hb2⟩ := costL_cons_inv hc2
      rw [hterm s t wa1 wb1 (by omega) ha1 hb1,
        ihts wa2 wb2 (by omega) ha2 hb2]

theorem cost_det {s : Subst} {t : FTerm} {w w2 : Nat} (h : Cost s t w)
    (h2 : Cost s t w2) : w = w2 :=
  (cost_det_aux w).1 s t w w2 (le_refl w) h h2

theorem costL_det {s : Subst} {ts : List FTerm} {w w2 : Nat} (h : CostL s ts w)
    (h2 : CostL s ts w2) : w = w2 :=
  (cost_det_aux w).2 s ts w w2 (le_refl w) h h2

mutual
theorem cost_of_sub : ∀ (m : Nat) (t : FTerm) (s : Subst) (u : FTerm),
    substituteF m t s = some u → ∃ w, Cost s t w
  | 0, t, s, u, h => by simp [substituteF] at h
  | m+1, t, s, u, h => by
    rw [substituteF] at h
    cases hl : slookup s t with
    | some v =>
      rw [hl] at h
      obtain ⟨w, hw⟩ := cost_of_sub m v s u h
      exact ⟨w + 1, Cost.chase hl hw⟩
    | none =>
      rw [hl] at h
      cases t with
      | term nm => exact ⟨1, Cost.leaf hl⟩
      | func f args =>
        replace h : (optMap (fun a => substituteF m a s) args).map
            (fun us => FTerm.func f us) = some u := h
        cases hmap : optMap (fun a => substituteF m a s) args with
        | none => rw [hmap] at h; exact absurd h (by simp)
        | some us =>
          obtain ⟨w, hw⟩ := costL_of_sub m args s us hmap
          exact ⟨w + 1, Cost.node hl hw⟩

theorem costL_of_sub : ∀ (m : Nat) (ts : List FTerm) (s : Subst) (us : List FTerm),
    optMap (fun a => substituteF m a s) ts = some us → ∃ w, CostL s ts w
  | _, [], _, _, _ => ⟨0, CostL.nil⟩
  | m, t :: ts, s, us, h => by
    obtain ⟨u, us2, hu, hus, rfl⟩ := optMap_cons h
    obtain ⟨w1, hw1⟩ := cost_of_sub m t s u hu
    obtain ⟨w2, hw2⟩ := costL_of_sub m ts s us2 hus
    exact ⟨w1 + w2, CostL.cons hw1 hw2⟩
end

theorem acyclic_cost {s : Subst} (hs : Acyclic s) (t : FTerm) : ∃ w, Cost s t w := by
  obtain ⟨u, m, hm⟩ := acyclic_conv hs t
  exact cost_of_sub m t s u hm

theorem acyclic_costL {s : Subst} (hs : Acyclic s) (ts : List FTerm) :
    ∃ w, CostL s ts w := by
  obtain ⟨us, m, hm⟩ := acyclic_convL hs ts
  exact costL_of_sub m ts s us hm

/-! ### Termination of the occurs check on acyclic substitutions -/

theorem anyOpt_mono {g g' : FTerm → Option Bool}
    (hg : ∀ a bl, g a = some bl → g' a = some bl) :
    ∀ {ts : List FTerm} {b : Bool}, anyOpt g ts = some b → anyOpt g' ts = some b
  | [], b, h => h
  | t :: ts, b, h => by
    rw [anyOpt] at h ⊢
    cases hgt : g t with
    | none => rw [hgt] at h; exact absurd h (by simp)
    | some b2 =>
      rw [hgt] at h
      rw [hg _ _ hgt]
      cases b2 with
      | true => exact h
      | false => exact anyOpt_mono hg h

theorem occurs_total_aux : ∀ (W : Nat),
    (∀ (s : Subst) (t : FTerm) (w : Nat), KeysVar s → w ≤ W → Cost s t w →
      ∀ v, ∃ k b, occursF k v t s = some b) ∧
    (∀ (s : Subst) (ts : List FTerm) (w : Nat), KeysVar s → w ≤ W →
      CostL s ts w → ∀ v, ∃ k b, anyOpt (fun a => occursF k v a s) ts = some b) := by
  intro W
  induction W with
  | zero =>
    constructor
    · intro s t w _ hw hc _
      exact absurd (cost_pos hc) (by omega)
    · intro s ts w _ hw hc v
      cases ts with
      | nil => exact ⟨0, false, rfl⟩
      | cons t ts =>
        obtain ⟨w1, wr, rfl, h1, _⟩ := costL_cons_inv hc
        exact absurd (cost_pos h1) (by omega)
  | succ W ih =>
    have hterm : ∀ (s : Subst) (t : FTerm) (w : Nat), KeysVar s → w ≤ W + 1 →
        Cost s t w → ∀ v, ∃ k b, occursF k v t s = some b := by
      intro s t w hks hw hc v
      by_cases hvt : v = t
      · refine ⟨1, true, ?_⟩
        rw [occursF]
        unfold occursStep
        rw [if_pos hvt]
      · cases t with
        | term nm =>
          cases hl : slookup s (FTerm.term nm) with
          | some v2 =>
            obtain ⟨w2, rfl, hc2⟩ := cost_chase_inv hl hc
            obtain ⟨k, b, hk⟩ := ih.1 s v2 w2 hks (by omega) hc2 v
            refine ⟨k + 1, b, ?_⟩
            rw [occursF]
            unfold occursStep
            rw [if_neg hvt, hl]
            exact hk
          | none =>
            refine ⟨1, false, ?_⟩
            rw [occursF]
            unfold occursStep
            rw [if_neg hvt, hl]
        | func f args =>
          have hl : slookup s (FTerm.func f args) = none :=
            slookup_func_none hks
          obtain ⟨w2, rfl, hc2⟩ := cost_node_inv hl hc
          obtain ⟨k, b, hk⟩ := ih.2 s args w2 hks (by omega) hc2 v
          refine ⟨k + 1, b, ?_⟩
          rw [occursF]
          unfold occursStep
          rw [if_neg hvt]
          exact hk
    refine ⟨hterm, ?_⟩
    intro s ts
    induction ts with
    | nil => exact fun w _ _ _ v => ⟨0, false, rfl⟩
    | cons t ts ihts =>
      intro w hks hw hc v
      obtain ⟨w1, w2, rfl, h1, h2⟩ := costL_cons_inv hc
      obtain ⟨k1, b1, hk1⟩ := hterm s t w1 hks (by omega) h1 v
      cases b1 with
      | true =>
        refine ⟨k1, true, ?_⟩
        rw [anyOpt, hk1]
      | false =>
        obtain ⟨k2, b2, hk2⟩ := ihts w2 hks (by omega) h2 v
        refine ⟨max k1 k2, b2, ?_⟩
        rw [anyOpt, occursF_le (Nat.le_max_left k1 k2) hk1]
        exact anyOpt_mono
          (fun a bl hb => occursF_le (Nat.le_max_right k1 k2) hb) hk2

theorem occurs_total {s : Subst} {t : FTerm} {w : Nat} (hks : KeysVar s)
    (hc : Cost s t w) (v : FTerm) : ∃ k b, occursF k v t s = some b :=
  (occurs_total_aux w).1 s t w hks (le_refl w) hc v

/-! ### Keys, leaves and the scope of a unification result -/

theorem slookup_append_none : ∀ {pre s : Subst} {v : FTerm},
    slookup (pre ++ s) v = none → slookup s v = none
  | [], _, _, h => h
  | (k, w) :: rest, s, v, h => by
    rw [List.cons_append, slookup] at h
    by_cases hk : k = v
    · rw [if_pos hk] at h; exact absurd h (by simp)
    · rw [if_neg hk] at h; exact slookup_append_none h

theorem mem_keysF {s : Subst} {v : FTerm} : v ∈ keysF s ↔ ∃ p ∈ s, p.1 = v := by
  simp [keysF, List.mem_toFinset, List.mem_map]

theorem key_has_value : ∀ {s : Subst} {v : FTerm}, v ∈ keysF s →
    ∃ w, slookup s v = some w
  | [], v, h => by simp [mem_keysF] at h
  | (k, w) :: rest, v, h => by
    by_cases hk : k = v
    · exact ⟨w, by rw [slookup, if_pos hk]⟩
    · obtain ⟨p, hp, hpv⟩ := mem_keysF.mp h
      rcases List.mem_cons.mp hp with rfl | hp2
      · exact absurd hpv hk
      · obtain ⟨w2, hw2⟩ := key_has_value (mem_keysF.mpr ⟨p, hp2, hpv⟩)
        exact ⟨w2, by rw [slookup, if_neg hk]; exact hw2⟩

theorem slookup_none_not_key {s : Subst} {v : FTerm} (h : slookup s v = none) :
    v ∉ keysF s := by
  intro hv
  obtain ⟨w, hw⟩ := key_has_value hv
  rw [h] at hw
  exact absurd hw (by simp)

theorem keysF_append {pre s : Subst} : keysF (pre ++ s) = keysF pre ∪ keysF s := by
  simp [keysF, List.map_append]

theorem slookup_nonvar_none : ∀ {s : Subst}, KeysVar s → ∀ {x : FTerm},
    is_variable x = false → slookup s x = none
  | [], _, _, _ => rfl
  | (k, w) :: rest, hks, x, hx => by
    have hkv : is_variable k = true := hks (k, w) (by simp)
    have hne : k ≠ x := by
      intro he
      rw [he, hx] at hkv
      exact absurd hkv (by simp)
    rw [slookup_cons_ne hne]
    exact slookup_nonvar_none (fun p hp => hks p (by simp [hp])) hx

theorem mem_allVars : ∀ {s : Subst} {p : FTerm × FTerm}, p ∈ s →
    tvarsF p.1 ∪ tvarsF p.2 ⊆ allVars s
  | [], p, hp => absurd hp (by simp)
  | q :: rest, p, hp => by
    rw [allVars]
    rcases List.mem_cons.mp hp with rfl | hp2
    · exact Finset.subset_union_left
    · intro a ha
      rw [Finset.mem_union]
      exact Or.inr (mem_allVars hp2 ha)

theorem slookup_tvars {s : Subst} {t v : FTerm} (h : slookup s t = some v) :
    tvarsF v ⊆ allVars s := by
  intro a ha
  exact mem_allVars (slookup_mem h) (Finset.mem_union_right _ ha)

theorem key_mem_allVars {s : Subst} (hks : KeysVar s) {p : FTerm × FTerm}
    (hp : p ∈ s) : p.1 ∈ allVars s := by
  have hkv : is_variable p.1 = true := hks p hp
  have hself : p.1 ∈ tvarsF p.1 := by
    cases hp1 : p.1 with
    | term nm => rw [tvarsF]; simp
    | func f args => rw [hp1, is_variable] at hkv; exact absurd hkv (by simp)
  exact mem_allVars hp (Finset.mem_union_left _ hself)

theorem unify_varStep_scope {g : FTerm → FTerm → Subst → Option (Option Subst)}
    {occ : FTerm → FTerm → Subst → Option Bool}
    (hg : ∀ a b s2 σ2, g a b s2 = some (some σ2) →
      allVars σ2 ⊆ tvarsF a ∪ tvarsF b ∪ allVars s2 ∧
      ∃ pre, σ2 = pre ++ s2 ∧ ∀ p ∈ pre, slookup s2 p.1 = none)
    {v x : FTerm} {s σ : Subst} (h : unify_varStep g occ v x s = some (some σ)) :
    allVars σ ⊆ tvarsF v ∪ tvarsF x ∪ allVars s ∧
    ∃ pre, σ = pre ++ s ∧ ∀ p ∈ pre, slookup s p.1 = none := by
  unfold unify_varStep at h
  cases h1 : slookup s v with
  | some w =>
    rw [h1] at h
    obtain ⟨hsub, pre, hpre, hkeys⟩ := hg _ _ _ _ h
    refine ⟨hsub.trans ?_, pre, hpre, hkeys⟩
    intro a ha
    rw [Finset.mem_union] at ha ⊢
    rcases ha with ha2 | ha2
    · rw [Finset.mem_union] at ha2
      rcases ha2 with ha3 | ha3
      · exact Or.inr (slookup_tvars h1 ha3)
      · exact Or.inl (Finset.mem_union_right _ ha3)
    · exact Or.inr ha2
  | none =>
    rw [h1] at h
    cases h2 : slookup s x with
    | some w =>
      rw [h2] at h
      obtain ⟨hsub, pre, hpre, hkeys⟩ := hg _ _ _ _ h
      refine ⟨hsub.trans ?_, pre, hpre, hkeys⟩
      intro a ha
      rw [Finset.mem_union] at ha ⊢
      rcases ha with ha2 | ha2
      · rw [Finset.mem_union] at ha2
        rcases ha2 with ha3 | ha3
        · exact Or.inl (Finset.mem_union_left _ ha3)
        · exact Or.inr (slookup_tvars h2 ha3)
      · exact Or.inr ha2
    | none =>
      rw [h2] at h
      cases h3 : occ v x s with
      | none => rw [h3] at h; exact absurd h (by simp)
      | some b =>
        rw [h3] at h
        cases b with
        | true => exact absurd h (by simp)
        | false =>
          have hσ : (v, x) :: s = σ := by simpa using h
          rw [← hσ]
          refine ⟨?_, [(v, x)], rfl, ?_⟩
          · rw [allVars]
          · intro p hp
            rcases List.mem_cons.mp hp with rfl | hp2
            · exact h1
            · exact absurd hp2 (by simp)

theorem foldUnify_scope {g : FTerm → FTerm → Subst → Option (Option Subst)}
    (hg : ∀ a b s2 σ2, g a b s2 = some (some σ2) →
      allVars σ2 ⊆ tvarsF a ∪ tvarsF b ∪ allVars s2 ∧
      ∃ pre, σ2 = pre ++ s2 ∧ ∀ p ∈ pre, slookup s2 p.1 = none) :
    ∀ {xs ys : List FTerm} {s σ : Subst},
      foldUnify g xs ys s = some (some σ) →
      allVars σ ⊆ tvarsFL xs ∪ tvarsFL ys ∪ allVars s ∧
      ∃ pre, σ = pre ++ s ∧ ∀ p ∈ pre, slookup s p.1 = none
  | [], [], s, σ, h => by
    have hσ : s = σ := by simpa [foldUnify] using h
    rw [← hσ]
    exact ⟨fun a ha => Finset.mem_union_right _ ha, [], rfl,
      fun p hp => absurd hp (by simp)⟩
  | [], _ :: _, s, σ, h => by simp [foldUnify] at h
  | _ :: _, [], s, σ, h => by simp [foldUnify] at h
  | x :: xs, y :: ys, s, σ, h => by
    rw [foldUnify] at h
    cases h1 : g x y s with
    | none => rw [h1] at h; exact absurd h (by simp)
    | some o =>
      rw [h1] at h
      cases o with
      | none => exact absurd h (by simp)
      | some s2 =>
        obtain ⟨hsub1, pre1, hpre1, hkeys1⟩ := hg _ _ _ _ h1
        obtain ⟨hsub2, pre2, hpre2, hkeys2⟩ := foldUnify_scope hg h
        constructor
        · intro a ha
          rw [tvarsFL, tvarsFL]
          have ha2 := hsub2 ha
          rw [Finset.mem_union] at ha2
          rw [Finset.mem_union, Finset.mem_union]
          rcases ha2 with ha3 | ha3
          · rw [Finset.mem_union] at ha3
            rcases ha3 with ha4 | ha4
            · exact Or.inl (Or.inl (Finset.mem_union_right _ ha4))
            · exact Or.inl (Or.inr (Finset.mem_union_right _ ha4))
          · have ha4 := hsub1 ha3
            rw [Finset.mem_union] at ha4
            rcases ha4 with ha5 | ha5
            · rw [Finset.mem_union] at ha5
              rcases ha5 with ha6 | ha6
              · exact Or.inl (Or.inl (Finset.mem_union_left _ ha6))
              · exact Or.inl (Or.inr (Finset.mem_union_left _ ha6))
            · exact Or.inr ha5
        · refine ⟨pre2 ++ pre1, by rw [hpre2, hpre1, List.append_assoc], ?_⟩
          intro p hp
          rcases List.mem_append.mp hp with hp2 | hp2
          · have := hkeys2 p hp2
            rw [hpre1] at this
            exact slookup_append_none this
          · exact hkeys1 p hp2

theorem unifyStep_scope {g : FTerm → FTerm → Subst → Option (Option Subst)}
    {occ : FTerm → FTerm → Subst → Option Bool}
    (hg : ∀ a b s2 σ2, g a b s2 = some (some σ2) →
      allVars σ2 ⊆ tvarsF a ∪ tvarsF b ∪ allVars s2 ∧
      ∃ pre, σ2 = pre ++ s2 ∧ ∀ p ∈ pre, slookup s2 p.1 = none)
    {x y : FTerm} {s σ : Subst} (h : unifyStep g occ x y s = some (some σ)) :
    allVars σ ⊆ tvarsF x ∪ tvarsF y ∪ allVars s ∧
    ∃ pre, σ = pre ++ s ∧ ∀ p ∈ pre, slookup s p.1 = none := by
  unfold unifyStep at h
  by_cases hxy : x = y
  · rw [if_pos hxy] at h
    have hσ : s = σ := by simpa using h
    rw [← hσ]
    exact ⟨fun a ha => Finset.mem_union_right _ ha, [], rfl,
      fun p hp => absurd hp (by simp)⟩
  · rw [if_neg hxy] at h
    by_cases hvx : is_variable x = true
    · rw [if_pos hvx] at h
      exact unify_varStep_scope hg h
    · rw [if_neg hvx] at h
      by_cases hvy : is_variable y = true
      · rw [if_pos hvy] at h
        obtain ⟨hsub, hpre⟩ := unify_varStep_scope hg h
        refine ⟨hsub.trans ?_, hpre⟩
        intro a ha
        rw [Finset.mem_union] at ha ⊢
        rcases ha with ha2 | ha2
        · rw [Finset.mem_union] at ha2
          rcases ha2 with ha3 | ha3
          · exact Or.inl (Finset.mem_union_right _ ha3)
          · exact Or.inl (Finset.mem_union_left _ ha3)
        · exact Or.inr ha2
      · rw [if_neg hvy] at h
        cases x with
        | term nx => cases y <;> exact absurd h (by simp)
        | func f xargs =>
          cases y with
          | term ny => exact absurd h (by simp)
          | func f2 yargs =>
            replace h : (if f ≠ f2 ∨ xargs.length ≠ yargs.length then some none
                else unify_listsW g xargs yargs s) = some (some σ) := h
            by_cases hfl : f ≠ f2 ∨ xargs.length ≠ yargs.length
            · rw [if_pos hfl] at h
              exact absurd h (by simp)
            · rw [if_neg hfl] at h
              unfold unify_listsW at h
              by_cases hlen : xargs.length ≠ yargs.length
              · rw [if_pos hlen] at h
                exact absurd h (by simp)
              · rw [if_neg hlen] at h
                obtain ⟨hsub, hpre⟩ := foldUnify_scope hg h
                exact ⟨hsub, hpre⟩

theorem unify_scope : ∀ (n : Nat) {x y : FTerm} {s σ : Subst},
    unifyF n x y s = some (some σ) →
    allVars σ ⊆ tvarsF x ∪ tvarsF y ∪ allVars s ∧
    ∃ pre, σ = pre ++ s ∧ ∀ p ∈ pre, slookup s p.1 = none
  | 0, x, y, s, σ, h => by simp [unifyF] at h
  | n+1, x, y, s, σ, h => by
    rw [unifyF] at h
    exact unifyStep_scope (fun a b s2 σ2 h2 => unify_scope n h2) h

/-! ### Computation rules for one `unify` step -/

theorem unifyF_refl {n : Nat} {x : FTerm} {s : Subst} :
    unifyF (n + 1) x x s = some (some s) := by
  rw [unifyF]
  unfold unifyStep
  rw [if_pos rfl]

theorem unifyF_var_chase {n : Nat} {x y wv : FTerm} {s : Subst}
    (hxy : x ≠ y) (hvx : is_variable x = true) (h1 : slookup s x = some wv) :
    unifyF (n + 1) x y s = unifyF n wv y s := by
  rw [unifyF]
  unfold unifyStep
  rw [if_neg hxy, if_pos hvx]
  unfold unify_varStep
  rw [h1]

theorem unifyF_var_rchase {n : Nat} {x y wv : FTerm} {s : Subst}
    (hxy : x ≠ y) (hvx : is_variable x = true) (h1 : slookup s x = none)
    (h2 : slookup s y = some wv) :
    unifyF (n + 1) x y s = unifyF n x wv s := by
  rw [unifyF]
  unfold unifyStep
  rw [if_neg hxy, if_pos hvx]
  unfold unify_varStep
  rw [h1, h2]

theorem unifyF_var_occ {n : Nat} {x y : FTerm} {s : Subst}
    (hxy : x ≠ y) (hvx : is_variable x = true) (h1 : slookup s x = none)
    (h2 : slookup s y = none) :
    unifyF (n + 1) x y s =
      (match occursF n x y s with
        | none => none
        | some true => some none
        | some false => some (some ((x, y) :: s))) := by
  rw [unifyF]
  unfold unifyStep
  rw [if_neg hxy, if_pos hvx]
  unfold unify_varStep
  rw [h1, h2]

theorem unifyF_yvar_chase {n : Nat} {x y wv : FTerm} {s : Subst}
    (hxy : x ≠ y) (hvx : is_variable x = false) (hvy : is_variable y = true)
    (h1 : slookup s y = some wv) :
    unifyF (n + 1) x y s = unifyF n wv x s := by
  rw [unifyF]
  unfold unifyStep
  rw [if_neg hxy, if_neg (by simp [hvx]), if_pos hvy]
  unfold unify_varStep
  rw [h1]

theorem unifyF_yvar_occ {n : Nat} {x y : FTerm} {s : Subst}
    (hxy : x ≠ y) (hvx : is_variable x = false) (hvy : is_variable y = true)
    (h1 : slookup s y = none) (h2 : slookup s x = none) :
    unifyF (n + 1) x y s =
      (match occursF n y x s with
        | none => none
        | some true => some none
        | some false => some (some ((y, x) :: s))) := by
  rw [unifyF]
  unfold unifyStep
  rw [if_neg hxy, if_neg (by simp [hvx]), if_pos hvy]
  unfold unify_varStep
  rw [h1, h2]

theorem unifyF_func_match {n : Nat} {f f2 : String} {xargs yargs : List FTerm}
    {s : Subst} (hxy : FTerm.func f xargs ≠ FTerm.func f2 yargs)
    (hvx : is_variable (FTerm.func f xargs) = false)
    (hvy : is_variable (FTerm.func f2 yargs) = false)
    (hf : f = f2) (hlen : xargs.length = yargs.length) :
    unifyF (n + 1) (.func f xargs) (.func f2 yargs) s =
      unifyListsF n xargs yargs s := by
  rw [unifyF]
  unfold unifyStep
  rw [if_neg hxy, if_neg (by simp [hvx]), if_neg (by simp [hvy])]
  show (if f ≠ f2 ∨ xargs.length ≠ yargs.length then some none
      else unify_listsW (fun a b s2 => unifyF n a b s2) xargs yargs s) =
    unifyListsF n xargs yargs s
  rw [if_neg (by simp [hf, hlen])]
  rfl

theorem unifyF_func_clash {n : Nat} {f f2 : String} {xargs yargs : List FTerm}
    {s : Subst} (hxy : FTerm.func f xargs ≠ FTerm.func f2 yargs)
    (hvx : is_variable (FTerm.func f xargs) = false)
    (hvy : is_variable (FTerm.func f2 yargs) = false)
    (hfl : f ≠ f2 ∨ xargs.length ≠ yargs.length) :
    unifyF (n + 1) (.func f xargs) (.func f2 yargs) s = some none := by
  rw [unifyF]
  unfold unifyStep
  rw [if_neg hxy, if_neg (by simp [hvx]), if_neg (by simp [hvy])]
  show (if f ≠ f2 ∨ xargs.length ≠ yargs.length then some none
      else unify_listsW (fun a b s2 => unifyF n a b s2) xargs yargs s) = some none
  rw [if_pos hfl]

theorem unifyF_atom_clash {n : Nat} {x y : FTerm} {s : Subst}
    (hxy : x ≠ y) (hvx : is_variable x = false) (hvy : is_variable y = false)
    (hshape : (∀ f xargs, x = FTerm.func f xargs →
      ∀ f2 yargs, y ≠ FTerm.func f2 yargs)) :
    unifyF (n + 1) x y s = some none := by
  rw [unifyF]
  unfold unifyStep
  rw [if_neg hxy, if_neg (by simp [hvx]), if_neg (by simp [hvy])]
  cases x with
  | term nx => cases y <;> rfl
  | func f xargs =>
    cases y with
    | term ny => rfl
    | func f2 yargs => exact absurd rfl (hshape f xargs rfl f2 yargs)

theorem unifyListsF_le {n n' : Nat} (hn : n ≤ n') {xs ys : List FTerm}
    {s : Subst} {r : Option Subst} (h : unifyListsF n xs ys s = some r) :
    unifyListsF n' xs ys s = some r := by
  unfold unifyListsF unify_listsW at h ⊢
  by_cases hl : xs.length ≠ ys.length
  · rw [if_pos hl] at h ⊢; exact h
  · rw [if_neg hl] at h ⊢
    exact foldUnify_mono (fun a b s2 r2 h2 => unifyF_le hn h2) h

/-! ### Termination of unification on acyclic substitutions -/

theorem unify_total_aux : ∀ (mu w : Nat),
    (∀ (x y : FTerm) (s : Subst), KeysVar s → Acyclic s →
      ((tvarsF x ∪ tvarsF y ∪ allVars s) \ keysF s).card < mu →
      (∀ wx wy, Cost s x wx → Cost s y wy → wx + wy < w) →
      ∃ n r, unifyF n x y s = some r) ∧
    (∀ (xs ys : List FTerm) (s : Subst), KeysVar s → Acyclic s →
      ((tvarsFL xs ∪ tvarsFL ys ∪ allVars s) \ keysF s).card < mu →
      (∀ wxs wys, CostL s xs wxs → CostL s ys wys → wxs + wys + 1 < w) →
      ∃ n r, unifyListsF n xs ys s = some r) := by
  intro mu
  induction mu with
  | zero =>
    intro w
    exact ⟨fun x y s _ _ hmu _ => absurd hmu (by omega),
      fun xs ys s _ _ hmu _ => absurd hmu (by omega)⟩
  | succ mu ihmu =>
    intro w
    induction w with
    | zero =>
      constructor
      · intro x y s hks has _ hw
        obtain ⟨wx, hcx⟩ := acyclic_cost has x
        obtain ⟨wy, hcy⟩ := acyclic_cost has y
        exact absurd (hw wx wy hcx hcy) (by omega)
      · intro xs ys s hks has _ hw
        obtain ⟨wxs, hcxs⟩ := acyclic_costL has xs
        obtain ⟨wys, hcys⟩ := acyclic_costL has ys
        exact absurd (hw wxs wys hcxs hcys) (by omega)
    | succ w ihw =>
      have hQ : ∀ (x y : FTerm) (s : Subst), KeysVar s → Acyclic s →
          ((tvarsF x ∪ tvarsF y ∪ allVars s) \ keysF s).card < mu + 1 →
          (∀ wx wy, Cost s x wx → Cost s y wy → wx + wy < w + 1) →
          ∃ n r, unifyF n x y s = some r := by
        intro x y s hks has hmu hw
        by_cases hxy : x = y
        · subst hxy
          exact ⟨1, some s, unifyF_refl⟩
        · by_cases hvx : is_variable x = true
          · cases h1 : slookup s x with
            | some wv =>
              have hsubU : tvarsF wv ∪ tvarsF y ∪ allVars s ⊆
                  tvarsF x ∪ tvarsF y ∪ allVars s := by
                intro a ha
                rw [Finset.mem_union] at ha ⊢
                rcases ha with ha2 | ha2
                · rw [Finset.mem_union] at ha2
                  rcases ha2 with ha3 | ha3
                  · exact Or.inr (slookup_tvars h1 ha3)
                  · exact Or.inl (Finset.mem_union_right _ ha3)
                · exact Or.inr ha2
              have hmu2 : ((tvarsF wv ∪ tvarsF y ∪ allVars s) \ keysF s).card < mu + 1 :=
                Nat.lt_of_le_of_lt (Finset.card_le_card
                  (Finset.sdiff_subset_sdiff hsubU (Finset.Subset.refl _))) hmu
              have hw2 : ∀ wx2 wy2, Cost s wv wx2 → Cost s y wy2 → wx2 + wy2 < w := by
                intro wx2 wy2 hc1 hc2
                have := hw (wx2 + 1) wy2 (Cost.chase h1 hc1) hc2
                omega
              obtain ⟨n, r, hn⟩ := ihw.1 wv y s hks has hmu2 hw2
              exact ⟨n + 1, r, by rw [unifyF_var_chase hxy hvx h1]; exact hn⟩
            | none =>
              cases h2 : slookup s y with
              | some wv =>
                have hsubU : tvarsF x ∪ tvarsF wv ∪ allVars s ⊆
                    tvarsF x ∪ tvarsF y ∪ allVars s := by
                  intro a ha
                  rw [Finset.mem_union] at ha ⊢
                  rcases ha with ha2 | ha2
                  · rw [Finset.mem_union] at ha2
                    rcases ha2 with ha3 | ha3
                    · exact Or.inl (Finset.mem_union_left _ ha3)
                    · exact Or.inr (slookup_tvars h2 ha3)
                  · exact Or.inr ha2
                have hmu2 : ((tvarsF x ∪ tvarsF wv ∪ allVars s) \ keysF s).card < mu + 1 :=
                  Nat.lt_of_le_of_lt (Finset.card_le_card
                    (Finset.sdiff_subset_sdiff hsubU (Finset.Subset.refl _))) hmu
                have hw2 : ∀ wx2 wy2, Cost s x wx2 → Cost s wv wy2 → wx2 + wy2 < w := by
                  intro wx2 wy2 hc1 hc2
                  have := hw wx2 (wy2 + 1) hc1 (Cost.chase h2 hc2)
                  omega
                obtain ⟨n, r, hn⟩ := ihw.1 x wv s hks has hmu2 hw2
                exact ⟨n + 1, r, by rw [unifyF_var_rchase hxy hvx h1 h2]; exact hn⟩
              | none =>
                obtain ⟨wy0, hcy⟩ := acyclic_cost has y
                obtain ⟨k, b, hk⟩ := occurs_total hks hcy x
                cases b with
                | true =>
                  refine ⟨k + 1, none, ?_⟩
                  rw [unifyF_var_occ hxy hvx h1 h2, hk]
                | false =>
                  refine ⟨k + 1, some ((x, y) :: s), ?_⟩
                  rw [unifyF_var_occ hxy hvx h1 h2, hk]
          · have hvx2 : is_variable x = false := by
              revert hvx
              cases is_variable x <;> simp
            by_cases hvy : is_variable y = true
            · cases h1 : slookup s y with
              | some wv =>
                have hsubU : tvarsF wv ∪ tvarsF x ∪ allVars s ⊆
                    tvarsF x ∪ tvarsF y ∪ allVars s := by
                  intro a ha
                  rw [Finset.mem_union] at ha ⊢
                  rcases ha with ha2 | ha2
                  · rw [Finset.mem_union] at ha2
                    rcases ha2 with ha3 | ha3
                    · exact Or.inr (slookup_tvars h1 ha3)
                    · exact Or.inl (Finset.mem_union_left _ ha3)
                  · exact Or.inr ha2
                have hmu2 : ((tvarsF wv ∪ tvarsF x ∪ allVars s) \ keysF s).card < mu + 1 :=
                  Nat.lt_of_le_of_lt (Finset.card_le_card
                    (Finset.sdiff_subset_sdiff hsubU (Finset.Subset.refl _))) hmu
                have hw2 : ∀ wx2 wy2, Cost s wv wx2 → Cost s x wy2 → wx2 + wy2 < w := by
                  intro wx2 wy2 hc1 hc2
                  have := hw wy2 (wx2 + 1) hc2 (Cost.chase h1 hc1)
                  omega
                obtain ⟨n, r, hn⟩ := ihw.1 wv x s hks has hmu2 hw2
                exact ⟨n + 1, r, by rw [unifyF_yvar_chase hxy hvx2 hvy h1]; exact hn⟩
              | none =>
                have h2 : slookup s x = none := slookup_nonvar_none hks hvx2
                obtain ⟨wx0, hcx⟩ := acyclic_cost has x
                obtain ⟨k, b, hk⟩ := occurs_total hks hcx y
                cases b with
                | true =>
                  refine ⟨k + 1, none, ?_⟩
                  rw [unifyF_yvar_occ hxy hvx2 hvy h1 h2, hk]
                | false =>
                  refine ⟨k + 1, some ((y, x) :: s), ?_⟩
                  rw [unifyF_yvar_occ hxy hvx2 hvy h1 h2, hk]
            · have hvy2 : is_variable y = false := by
                revert hvy
                cases is_variable y <;> simp
              cases x with
              | term nx =>
                refine ⟨1, none, unifyF_atom_clash hxy hvx2 hvy2 ?_⟩
                intro f xargs hfx
                exact absurd hfx (by simp)
              | func f xargs =>
                cases y with
                | term ny =>
                  refine ⟨1, none, unifyF_atom_clash hxy hvx2 hvy2 ?_⟩
                  intro f3 xargs3 _ f2 yargs hy
                  exact FTerm.noConfusion hy
                | func f2 yargs =>
                  by_cases hfl : f ≠ f2 ∨ xargs.length ≠ yargs.length
                  · exact ⟨1, none, unifyF_func_clash hxy hvx2 hvy2 hfl⟩
                  · push_neg at hfl
                    obtain ⟨hf, hlen⟩ := hfl
                    have hmu2 : ((tvarsFL xargs ∪ tvarsFL yargs ∪ allVars s) \
                        keysF s).card < mu + 1 := hmu
                    have hw2 : ∀ wxs wys, CostL s xargs wxs → CostL s yargs wys →
                        wxs + wys + 1 < w := by
                      intro wxs wys hcs1 hcs2
                      have := hw (wxs + 1) (wys + 1)
                        (Cost.node (slookup_func_none hks) hcs1)
                        (Cost.node (slookup_func_none hks) hcs2)
                      omega
                    obtain ⟨n, r, hn⟩ := ihw.2 xargs yargs s hks has hmu2 hw2
                    exact ⟨n + 1, r,
                      by rw [unifyF_func_match hxy hvx2 hvy2 hf hlen]; exact hn⟩
      refine ⟨hQ, ?_⟩
      intro xs ys s hks has hmu hw
      by_cases hlen : xs.length = ys.length
      · cases xs with
        | nil =>
          cases ys with
          | nil =>
            refine ⟨0, some s, ?_⟩
            unfold unifyListsF unify_listsW
            rw [if_neg (by simp)]
            rfl
          | cons y ys2 => simp at hlen
        | cons x xs2 =>
          cases ys with
          | nil => simp at hlen
          | cons y ys2 =>
            have hlen2 : xs2.length = ys2.length := by simpa using hlen
            obtain ⟨wxs2, hcxs2⟩ := acyclic_costL has xs2
            obtain ⟨wys2, hcys2⟩ := acyclic_costL has ys2
            have hUhead : tvarsF x ∪ tvarsF y ∪ allVars s ⊆
                tvarsFL (x :: xs2) ∪ tvarsFL (y :: ys2) ∪ allVars s := by
              intro a ha
              rw [Finset.mem_union] at ha ⊢
              rcases ha with ha2 | ha2
              · rw [Finset.mem_union] at ha2
                rw [tvarsFL, tvarsFL]
                rcases ha2 with ha3 | ha3
                · exact Or.inl (Finset.mem_union_left _ (Finset.mem_union_left _ ha3))
                · exact Or.inl (Finset.mem_union_right _ (Finset.mem_union_left _ ha3))
              · exact Or.inr ha2
            have hmuh : ((tvarsF x ∪ tvarsF y ∪ allVars s) \ keysF s).card < mu + 1 :=
              Nat.lt_of_le_of_lt (Finset.card_le_card
                (Finset.sdiff_subset_sdiff hUhead (Finset.Subset.refl _))) hmu
            have hwh : ∀ wx wy, Cost s x wx → Cost s y wy → wx + wy < w := by
              intro wx wy hcx hcy
              have := hw (wx + wxs2) (wy + wys2)
                (CostL.cons hcx hcxs2) (CostL.cons hcy hcys2)
              omega
            obtain ⟨n1, r1, h1⟩ := ihw.1 x y s hks has hmuh hwh
            cases r1 with
            | none =>
              refine ⟨n1, none, ?_⟩
              unfold unifyListsF unify_listsW
              rw [if_neg (by simp [hlen])]
              rw [foldUnify, h1]
            | some s2 =>
              have hks2 : KeysVar s2 := (unify_ext n1 h1).2 hks
              have has2 : Acyclic s2 := (unify_sound n1 h1 hks has).1
              obtain ⟨hscope, pre, hpre, hprekeys⟩ := unify_scope n1 h1
              cases pre with
              | nil =>
                rw [List.nil_append] at hpre
                rw [hpre] at h1
                have hUtail : tvarsFL xs2 ∪ tvarsFL ys2 ∪ allVars s ⊆
                    tvarsFL (x :: xs2) ∪ tvarsFL (y :: ys2) ∪ allVars s := by
                  intro a ha
                  rw [Finset.mem_union] at ha ⊢
                  rcases ha with ha2 | ha2
                  · rw [Finset.mem_union] at ha2
                    rw [tvarsFL, tvarsFL]
                    rcases ha2 with ha3 | ha3
                    · exact Or.inl (Finset.mem_union_left _ (Finset.mem_union_right _ ha3))
                    · exact Or.inl (Finset.mem_union_right _ (Finset.mem_union_right _ ha3))
                  · exact Or.inr ha2
                have hmut : ((tvarsFL xs2 ∪ tvarsFL ys2 ∪ allVars s) \ keysF s).card <
                    mu + 1 :=
                  Nat.lt_of_le_of_lt (Finset.card_le_card
                    (Finset.sdiff_subset_sdiff hUtail (Finset.Subset.refl _))) hmu
                have hwt : ∀ was wys, CostL s xs2 was → CostL s ys2 wys →
                    was + wys + 1 < w := by
                  intro was wys hc1 hc2
                  obtain ⟨wx, hcx⟩ := acyclic_cost has x
                  obtain ⟨wy, hcy⟩ := acyclic_cost has y
                  have hb := hw (wx + was) (wy + wys)
                    (CostL.cons hcx hc1) (CostL.cons hcy hc2)
                  have hpx := cost_pos hcx
                  have hpy := cost_pos hcy
                  omega
                obtain ⟨n2, r2, h2⟩ := ihw.2 xs2 ys2 s hks has hmut hwt
                refine ⟨max n1 n2, r2, ?_⟩
                unfold unifyListsF unify_listsW
                rw [if_neg (by simp [hlen])]
                rw [foldUnify]
                have h1b := unifyF_le (Nat.le_max_left n1 n2) h1
                rw [h1b]
                have h2b := unifyListsF_le (Nat.le_max_right n1 n2) h2
                unfold unifyListsF unify_listsW at h2b
                rw [if_neg (by simp [hlen2])] at h2b
                exact h2b
              | cons p pre2 =>
                have hpmem : p ∈ s2 := by
                  rw [hpre]
                  exact List.mem_append.mpr (Or.inl (by simp))
                have hkey2 : p.1 ∈ keysF s2 := mem_keysF.mpr ⟨p, hpmem, rfl⟩
                have hnokey : slookup s p.1 = none := hprekeys p (by simp)
                have hnotkey : p.1 ∉ keysF s := slookup_none_not_key hnokey
                have hallv : p.1 ∈ allVars s2 := key_mem_allVars hks2 hpmem
                have hUparent : p.1 ∈ tvarsFL (x :: xs2) ∪ tvarsFL (y :: ys2) ∪
                    allVars s := by
                  have h3 := hscope hallv
                  rw [Finset.mem_union] at h3 ⊢
                  rcases h3 with h4 | h4
                  · rw [Finset.mem_union] at h4
                    rw [tvarsFL, tvarsFL]
                    rcases h4 with h5 | h5
                    · exact Or.inl (Finset.mem_union_left _ (Finset.mem_union_left _ h5))
                    · exact Or.inl (Finset.mem_union_right _ (Finset.mem_union_left _ h5))
                  · exact Or.inr h4
                have hPmem : p.1 ∈ (tvarsFL (x :: xs2) ∪ tvarsFL (y :: ys2) ∪
                    allVars s) \ keysF s := Finset.mem_sdiff.mpr ⟨hUparent, hnotkey⟩
                have hkeysub : keysF s ⊆ keysF s2 := by
                  rw [hpre, keysF_append]
                  exact Finset.subset_union_right
                have hCsub : (tvarsFL xs2 ∪ tvarsFL ys2 ∪ allVars s2) \ keysF s2 ⊆
                    ((tvarsFL (x :: xs2) ∪ tvarsFL (y :: ys2) ∪ allVars s) \
                      keysF s).erase p.1 := by
                  intro a ha
                  rw [Finset.mem_sdiff] at ha
                  obtain ⟨haU, haK⟩ := ha
                  rw [Finset.mem_erase, Finset.mem_sdiff]
                  refine ⟨?_, ?_, ?_⟩
                  · intro he
                    rw [he] at haK
                    exact haK hkey2
                  · rw [Finset.mem_union] at haU ⊢
                    rcases haU with h3 | h3
                    · rw [Finset.mem_union] at h3
                      rw [tvarsFL, tvarsFL]
                      rcases h3 with h4 | h4
                      · exact Or.inl (Finset.mem_union_left _
                          (Finset.mem_union_right _ h4))
                      · exact Or.inl (Finset.mem_union_right _
                          (Finset.mem_union_right _ h4))
                    · have h4 := hscope h3
                      rw [Finset.mem_union] at h4
                      rcases h4 with h5 | h5
                      · rw [Finset.mem_union] at h5
                        rw [tvarsFL, tvarsFL]
                        rcases h5 with h6 | h6
                        · exact Or.inl (Finset.mem_union_left _
                            (Finset.mem_union_left _ h6))
                        · exact Or.inl (Finset.mem_union_right _
                            (Finset.mem_union_left _ h6))
                      · exact Or.inr h5
                  · exact fun haKs => haK (hkeysub haKs)
                have hcard : ((tvarsFL xs2 ∪ tvarsFL ys2 ∪ allVars s2) \
                    keysF s2).card < mu := by
                  have h5 := Finset.card_le_card hCsub
                  have h6 := Finset.card_erase_lt_of_mem hPmem
                  omega
                obtain ⟨was, hcwas⟩ := acyclic_costL has2 xs2
                obtain ⟨wys, hcwys⟩ := acyclic_costL has2 ys2
                have hwt : ∀ was2 wys2, CostL s2 xs2 was2 → CostL s2 ys2 wys2 →
                    was2 + wys2 + 1 < was + wys + 2 := by
                  intro was2 wys2 hc1 hc2
                  rw [costL_det hc1 hcwas, costL_det hc2 hcwys]
                  omega
                obtain ⟨n2, r2, h2⟩ :=
                  (ihmu (was + wys + 2)).2 xs2 ys2 s2 hks2 has2 hcard hwt
                refine ⟨max n1 n2, r2, ?_⟩
                unfold unifyListsF unify_listsW
                rw [if_neg (by simp [hlen])]
                rw [foldUnify]
                have h1b := unifyF_le (Nat.le_max_left n1 n2) h1
                rw [h1b]
                have h2b := unifyListsF_le (Nat.le_max_right n1 n2) h2
                unfold unifyListsF unify_listsW at h2b
                rw [if_neg (by simp [hlen2])] at h2b
                exact h2b
      · refine ⟨0, none, ?_⟩
        unfold unifyListsF unify_listsW
        rw [if_pos hlen]

theorem unify_total (x y : FTerm) (s : Subst) (hks : KeysVar s)
    (has : Acyclic s) : ∃ n r, unifyF n x y s = some r := by
  obtain ⟨wx, hcx⟩ := acyclic_cost has x
  obtain ⟨wy, hcy⟩ := acyclic_cost has y
  refine (unify_total_aux
    (((tvarsF x ∪ tvarsF y ∪ allVars s) \ keysF s).card + 1)
    (wx + wy + 1)).1 x y s hks has (by omega) ?_
  intro wx2 wy2 hcx2 hcy2
  rw [cost_det hcx2 hcx, cost_det hcy2 hcy]
  omega

theorem unifyTop_total (xs ys : List FTerm) (s : Subst) (hks : KeysVar s)
    (has : Acyclic s) : ∃ n r, unifyTopF n xs ys s = some r := by
  by_cases hxy : xs = ys
  · refine ⟨1, some s, ?_⟩
    rw [unifyTopF, if_pos hxy]
  · obtain ⟨wxs, hcxs⟩ := acyclic_costL has xs
    obtain ⟨wys, hcys⟩ := acyclic_costL has ys
    have hbound : ∀ wxs2 wys2, CostL s xs wxs2 → CostL s ys wys2 →
        wxs2 + wys2 + 1 < wxs + wys + 2 := by
      intro wxs2 wys2 hc1 hc2
      rw [costL_det hc1 hcxs, costL_det hc2 hcys]
      omega
    obtain ⟨n, r, hn⟩ := (unify_total_aux
      (((tvarsFL xs ∪ tvarsFL ys ∪ allVars s) \ keysF s).card + 1)
      (wxs + wys + 2)).2 xs ys s hks has (by omega) hbound
    refine ⟨n + 1, r, ?_⟩
    rw [unifyTopF, if_neg hxy]
    exact hn

/-! ### Canonical valuations and equivalence of unifiers -/

theorem models_norm {θ : String → FTerm} {σ : Subst} (hm : Models θ σ)
    (hk : KeysVar σ) :
    ∀ (m : Nat) (t u : FTerm), substituteF m t σ = some u →
      applyV θ u = applyV θ t
  | 0, t, u, h => by simp [substituteF] at h
  | m+1, t, u, h => by
    rw [substituteF] at h
    cases hl : slookup σ t with
    | some v =>
      rw [hl] at h
      have heq : applyV θ t = applyV θ v := hm _ (slookup_mem hl)
      rw [models_norm hm hk m v u h, heq]
    | none =>
      rw [hl] at h
      cases t with
      | term nm =>
        replace h : some (FTerm.term nm) = some u := h
        rw [← Option.some.inj h]
      | func f args =>
        replace h : (optMap (fun a => substituteF m a σ) args).map
            (fun us => FTerm.func f us) = some u := h
        cases hmap : optMap (fun a => substituteF m a σ) args with
        | none => rw [hmap] at h; exact absurd h (by simp)
        | some us =>
          rw [hmap] at h
          rw [← Option.some.inj h]
          rw [applyV, applyV]
          have hf := optMap_forall₂ hmap
          clear h hmap hl
          congr 1
          induction hf with
          | nil => rfl
          | cons hab hrest ih =>
            rw [applyVL, applyVL, ih, models_norm hm hk m _ _ hab]

mutual
theorem applyV_of_norm {σ : Subst} {θ : String → FTerm} (hk : KeysVar σ)
    (hθ : ∀ nm u, NormO σ (.term nm) u → θ nm = u) :
    ∀ (t u : FTerm), NormO σ t u → applyV θ t = u
  | .term nm, u, h => by
    rw [applyV]
    exact hθ nm u h
  | .func f args, u, h => by
    rw [applyV]
    obtain ⟨us, hus, rfl⟩ := (normO_func (slookup_func_none hk)).mp h
    rw [applyVL_of_norm hk hθ args us hus]

theorem applyVL_of_norm {σ : Subst} {θ : String → FTerm} (hk : KeysVar σ)
    (hθ : ∀ nm u, NormO σ (.term nm) u → θ nm = u) :
    ∀ (ts us : List FTerm), NormLO σ ts us → applyVL θ ts = us
  | [], us, h => by
    obtain ⟨m, hm⟩ := h
    replace hm : some ([] : List FTerm) = some us := hm
    rw [applyVL, ← Option.some.inj hm]
  | t :: ts, us, h => by
    obtain ⟨u, us2, hu, hus2, rfl⟩ := normLO_cons.mp h
    rw [applyVL, applyV_of_norm hk hθ t u hu, applyVL_of_norm hk hθ ts us2 hus2]
end

theorem canonical_valuation {σ : Subst} (hk : KeysVar σ) :
    ∃ θ : String → FTerm, ValOK θ ∧ ∀ t u, NormO σ t u → applyV θ t = u := by
  classical
  have hθ : ∀ nm u, NormO σ (FTerm.term nm) u →
      (if hh : ∃ u2, NormO σ (FTerm.term nm) u2 then hh.choose
        else FTerm.term nm) = u := by
    intro nm u hu
    rw [dif_pos ⟨u, hu⟩]
    exact normO_unique
      (Exists.choose_spec (⟨u, hu⟩ : ∃ u2, NormO σ (FTerm.term nm) u2)) hu
  refine ⟨fun nm => if hh : ∃ u2, NormO σ (FTerm.term nm) u2 then hh.choose
    else FTerm.term nm, ?_, applyV_of_norm hk hθ⟩
  intro nm hnm
  have hnb : slookup σ (FTerm.term nm) = none :=
    slookup_nonvar_none hk (by rw [is_variable]; exact hnm)
  exact hθ nm _ (normO_nokey_term hnb)

theorem models_nil {θ : String → FTerm} : Models θ [] :=
  fun _ hp => absurd hp (by simp)

/-! ### Claim theorems -/

/-- C1: whenever `unify(x, y, {})` on two terms or two argument lists
returns a substitution `σ` rather than failure, applying `σ` with the
full-chase `substitute` to `x` and to `y` terminates and yields
structurally identical results. -/
theorem unify_success_unifies :
    (∀ (n : Nat) (x y : FTerm) (σ : Subst), unifyF n x y [] = some (some σ) →
      ∃ u, NormO σ x u ∧ NormO σ y u) ∧
    (∀ (n : Nat) (xs ys : List FTerm) (σ : Subst),
      unifyTopF n xs ys [] = some (some σ) →
      ∃ us, NormLO σ xs us ∧ NormLO σ ys us) := by
  constructor
  · intro n x y σ h
    exact (unify_sound n h keysVar_nil acyclic_nil).2
  · intro n xs ys σ h
    exact (unifyTop_sound h keysVar_nil acyclic_nil).2

theorem unify_success_unifies_witness :
    ∃ u, NormO [(FTerm.term "x", FTerm.term "A")] (FTerm.term "x") u ∧
      NormO [(FTerm.term "x", FTerm.term "A")] (FTerm.term "A") u :=
  unify_success_unifies.1 10 (FTerm.term "x") (FTerm.term "A")
    [(FTerm.term "x", FTerm.term "A")] rfl

/-- C2: if any resolvent computed during a saturation round has zero
literals, the round reports the empty clause at once (the remaining pairs
of the round are not consulted) and `resolution` returns "no"; in
particular on the knowledge base `{P(x)}, {!P(A)}` the two clauses resolve
with `x ↦ A` to the empty clause and resolution answers "no". -/
theorem empty_clause_short_circuit :
    (∀ (uf : Nat) (ci cj : Clause) (rest : List (Clause × Clause))
        (derived new rs d2 : List Clause),
      resolveF uf ci cj = some rs → scanRes rs derived new = .empty d2 →
      roundF uf ((ci, cj) :: rest) derived new = some (.foundEmpty d2)) ∧
    (∀ (uf : Nat) (pairs : List (Clause × Clause)) (derived new : List Clause)
        (r : RoundOut), roundF uf pairs derived new = some r →
      (∃ p ∈ pairs, ∃ rs, resolveF uf p.1 p.2 = some rs ∧
        ∃ c ∈ rs, c.literals = ([] : List Pred)) →
      ∃ d, r = .foundEmpty d) ∧
    (∀ (uf rf : Nat) (st : RState) (d : List Clause),
      roundF uf (pairsOf st.clauses) st.derived [] = some (.foundEmpty d) →
      resolutionS uf (rf + 1) st = some ("no", RState.mk st.kb st.clauses d)) ∧
    unifyTopF 20 [FTerm.term "x"] [FTerm.term "A"] [] =
      some (some [(FTerm.term "x", FTerm.term "A")]) ∧
    resolveF 20 clausePx clauseNPA = some [Clause.mk []] ∧
    resolutionRun 20 1 [clausePx, clauseNPA] =
      some ("no", RState.mk [clausePx, clauseNPA] [clausePx, clauseNPA]
        [clausePx, clauseNPA]) := by
  refine ⟨?_, ?_, ?_, rfl, rfl, rfl⟩
  · intro uf ci cj rest derived new rs d2 h1 h2
    rw [roundF, h1]
    show (match scanRes rs derived new with
      | ScanOut.empty d => some (RoundOut.foundEmpty d)
      | ScanOut.cont d n => roundF uf rest d n) = some (RoundOut.foundEmpty d2)
    rw [h2]
  · intro uf pairs derived new r h hmem
    exact roundF_empty_of_mem h hmem
  · intro uf rf st d h
    rw [resolutionS, h]

theorem empty_clause_short_circuit_witness :
    roundF 20 [(clausePx, clauseNPA)] [clausePx, clauseNPA] [] =
      some (.foundEmpty [clausePx, clauseNPA]) :=
  empty_clause_short_circuit.1 20 clausePx clauseNPA []
    [clausePx, clauseNPA] [] [Clause.mk []] [clausePx, clauseNPA] rfl rfl

/-- C3: on the knowledge base `{P(A)}, {Q(B)}` no complementary pair
exists: the single round produces zero resolvents (and an empty `new`
buffer) and `resolution` answers "yes" within one round. -/
theorem saturation_terminates_yes :
    resolveF 20 clausePA clauseQB = some [] ∧
    roundF 20 (pairsOf [clausePA, clauseQB]) (initDerived [clausePA, clauseQB]) [] =
      some (RoundOut.done [clausePA, clauseQB] []) ∧
    resolutionRun 20 1 [clausePA, clauseQB] =
      some ("yes", RState.mk [clausePA, clauseQB] [clausePA, clauseQB]
        [clausePA, clauseQB]) :=
  ⟨rfl, rfl, rfl⟩

/-- C4: for every substitution produced by a successful unification from
the empty substitution (its bindings kept cycle-free by the occurs-check)
and every term, the full-chase `substitute` terminates — both for a
substitution coming from unifying two terms and from unifying two
argument lists. -/
theorem substitute_terminates :
    (∀ (n : Nat) (x y : FTerm) (σ : Subst), unifyF n x y [] = some (some σ) →
      ∀ t, ∃ m u, substituteF m t σ = some u) ∧
    (∀ (n : Nat) (xs ys : List FTerm) (σ : Subst),
      unifyTopF n xs ys [] = some (some σ) →
      ∀ t, ∃ m u, substituteF m t σ = some u) := by
  constructor
  · intro n x y σ h t
    obtain ⟨u, m, hm⟩ := acyclic_conv (unify_sound n h keysVar_nil acyclic_nil).1 t
    exact ⟨m, u, hm⟩
  · intro n xs ys σ h t
    obtain ⟨u, m, hm⟩ := acyclic_conv (unifyTop_sound h keysVar_nil acyclic_nil).1 t
    exact ⟨m, u, hm⟩

theorem substitute_terminates_witness :
    ∃ m u, substituteF m (FTerm.func "g" [FTerm.term "x", FTerm.term "y"])
      [(FTerm.term "x", FTerm.term "A")] = some u :=
  substitute_terminates.1 10 (FTerm.term "x") (FTerm.term "A")
    [(FTerm.term "x", FTerm.term "A")] rfl
    (FTerm.func "g" [FTerm.term "x", FTerm.term "y"])

/-- C5: `unify(Variable("x"), Function("f", [Variable("x")]), {})` fails,
returning the `None` sentinel (the computation converges to the failure
value instead of raising); in general, whenever the occurs-check reports
that the variable occurs in the term (directly or after chasing bindings),
`unify_var` on two unbound sides returns the sentinel. -/
theorem occurs_check_rejects :
    unifyF 10 (FTerm.term "x") (FTerm.func "f" [FTerm.term "x"]) [] = some none ∧
    (∀ (n : Nat) (v x : FTerm) (s : Subst), slookup s v = none →
      slookup s x = none → occursF n v x s = some true →
      unify_varF n v x s = some none) := by
  refine ⟨rfl, ?_⟩
  intro n v x s h1 h2 h3
  unfold unify_varF unify_varStep
  rw [h1, h2]
  show (match occursF n v x s with
    | none => none
    | some true => some none
    | some false => some (some ((v, x) :: s))) = some none
  rw [h3]

theorem occurs_check_rejects_witness :
    unify_varF 5 (FTerm.term "x") (FTerm.func "f" [FTerm.term "x"]) [] = some none :=
  occurs_check_rejects.2 5 (FTerm.term "x") (FTerm.func "f" [FTerm.term "x"]) []
    rfl rfl rfl

/-- C6: copy-on-extend semantics — a successful `unify(x, y, s)` returns a
substitution that contains every binding of the caller's `s` unchanged (it
only adds bindings), for the term and the argument-list entry points; a
failed attempt returns the distinct sentinel, and the caller's mapping is
an immutable value in the embedding. -/
theorem unify_copy_on_extend :
    (∀ (n : Nat) (x y : FTerm) (s σ : Subst), unifyF n x y s = some (some σ) →
      ∀ k v, slookup s k = some v → slookup σ k = some v) ∧
    (∀ (n : Nat) (xs ys : List FTerm) (s σ : Subst),
      unifyTopF n xs ys s = some (some σ) →
      ∀ k v, slookup s k = some v → slookup σ k = some v) :=
  ⟨fun n _ _ _ _ h => (unify_ext n h).1, fun _ _ _ _ _ h => (unifyTop_ext h).1⟩

theorem unify_copy_on_extend_witness :
    slookup [(FTerm.term "x", FTerm.term "A"), (FTerm.term "y", FTerm.term "B")]
      (FTerm.term "y") = some (FTerm.term "B") :=
  unify_copy_on_extend.1 10 (FTerm.term "x") (FTerm.term "A")
    [(FTerm.term "y", FTerm.term "B")]
    [(FTerm.term "x", FTerm.term "A"), (FTerm.term "y", FTerm.term "B")] rfl
    (FTerm.term "y") (FTerm.term "B") rfl

/-- C8: saturation is deterministic as a two-run property: two runs of
`resolution` on the same knowledge base (with the same fuel) return the
same verdict and the same cardinality of the final deduplicated derived
clause set. -/
theorem resolution_two_runs_agree :
    ∀ (uf rf : Nat) (kb : List Clause) (v1 v2 : String) (st1 st2 : RState),
      resolutionRun uf rf kb = some (v1, st1) →
      resolutionRun uf rf kb = some (v2, st2) →
      v1 = v2 ∧ st1.derived.length = st2.derived.length := by
  intro uf rf kb v1 v2 st1 st2 h1 h2
  rw [h1] at h2
  have h3 := Option.some.inj h2
  rw [Prod.mk.injEq] at h3
  rw [h3.1, h3.2]
  exact ⟨rfl, rfl⟩

theorem resolution_two_runs_agree_witness :
    ("yes" : String) = "yes" ∧
      ([clausePA, clauseQB] : List Clause).length = [clausePA, clauseQB].length :=
  resolution_two_runs_agree 20 1 [clausePA, clauseQB] "yes" "yes"
    (RState.mk [clausePA, clauseQB] [clausePA, clauseQB] [clausePA, clauseQB])
    (RState.mk [clausePA, clauseQB] [clausePA, clauseQB] [clausePA, clauseQB])
    rfl rfl

/-- C9: `resolution(kb)` never mutates its argument: the working list is a
copy of `kb` (the run starts with `clauses = kb` and `derived = set(kb)`),
and across every saturation round the caller's `kb` component of the state
is carried through unchanged. -/
theorem resolution_never_mutates_kb :
    (∀ (uf rf : Nat) (st : RState) (v : String) (st2 : RState),
      resolutionS uf rf st = some (v, st2) → st2.kb = st.kb) ∧
    (∀ (uf rf : Nat) (kb : List Clause) (v : String) (st2 : RState),
      resolutionRun uf rf kb = some (v, st2) → st2.kb = kb) := by
  refine ⟨resolutionS_kb, ?_⟩
  intro uf rf kb v st2 h
  exact resolutionS_kb uf rf (RState.mk kb kb (initDerived kb)) v st2 h

theorem resolution_never_mutates_kb_witness :
    ([clausePx, clauseNPA] : List Clause) = [clausePx, clauseNPA] :=
  resolution_never_mutates_kb.2 20 1 [clausePx, clauseNPA] "no"
    (RState.mk [clausePx, clauseNPA] [clausePx, clauseNPA]
      [clausePx, clauseNPA]) rfl

/-- C10 (amended): a `Term` whose name does not begin with a lowercase
letter is not a variable; `unify` never creates a binding whose key is
such a term (every binding key of a substitution produced by unification
is a variable); and such a term unifies with another non-variable only
when the two are structurally equal — it can, however, still unify with a
variable, which is then bound to it. -/
theorem nonvariables_behave_as_constants :
    (∀ (nm : String) (c : Char) (cs : List Char), nm.data = c :: cs →
      isLowerC c = false → is_variable (FTerm.term nm) = false) ∧
    (∀ (n : Nat) (x y : FTerm) (s σ : Subst), unifyF n x y s = some (some σ) →
      KeysVar s → KeysVar σ) ∧
    (∀ (n : Nat) (nm : String) (y : FTerm) (s σ : Subst),
      is_variable (FTerm.term nm) = false → is_variable y = false →
      unifyF n (FTerm.term nm) y s = some (some σ) →
      FTerm.term nm = y ∧ σ = s) := by
  refine ⟨?_, ?_, ?_⟩
  · intro nm c cs hd hc
    simp [is_variable, is_variable_name, hd, hc]
  · intro n x y s σ h hks
    exact (unify_ext n h).2 hks
  · intro n nm y s σ hx hy h
    cases n with
    | zero => simp [unifyF] at h
    | succ n =>
      rw [unifyF] at h
      unfold unifyStep at h
      by_cases hxy : FTerm.term nm = y
      · rw [if_pos hxy] at h
        have hσ : s = σ := by simpa using h
        exact ⟨hxy, hσ.symm⟩
      · rw [if_neg hxy] at h
        rw [if_neg (by simp [hx]), if_neg (by simp [hy])] at h
        cases y with
        | term ny => exact absurd h (by simp)
        | func f yargs => exact absurd h (by simp)

theorem nonvariables_behave_as_constants_witness :
    is_variable (FTerm.term "A123_z") = false ∧
      (FTerm.term "A" = FTerm.term "A" ∧ ([] : Subst) = []) :=
  ⟨nonvariables_behave_as_constants.1 "A123_z" 'A' ['1', '2', '3', '_', 'z']
      rfl rfl,
    nonvariables_behave_as_constants.2.2 10 "A" (FTerm.term "A") [] [] rfl rfl rfl⟩

/-- C7: unification is symmetric — whenever `unify(x, y, {})` succeeds
with `σ` (for two terms, and for two argument lists through the list entry
point), `unify(y, x, {})` also succeeds with some `σ2` (hence success in
one direction is equivalent to success in the other), and `σ` and `σ2`
denote the same most general unifier up to the direction of variable
bindings: each result substitution maps the other's normal forms to its
own (normalizing with `σ2` after `σ`, or with `σ` after `σ2`, changes
nothing), so each is an instance of the other. -/
theorem unify_symmetric :
    (∀ (n : Nat) (x y : FTerm) (σ : Subst), unifyF n x y [] = some (some σ) →
      ∃ n2 σ2, unifyF n2 y x [] = some (some σ2) ∧
        (∀ t u u2, NormO σ t u → NormO σ2 t u2 → NormO σ2 u u2) ∧
        (∀ t u u2, NormO σ t u → NormO σ2 t u2 → NormO σ u2 u)) ∧
    (∀ (n : Nat) (xs ys : List FTerm) (σ : Subst),
      unifyTopF n xs ys [] = some (some σ) →
      ∃ n2 σ2, unifyTopF n2 ys xs [] = some (some σ2) ∧
        (∀ t u u2, NormO σ t u → NormO σ2 t u2 → NormO σ2 u u2) ∧
        (∀ t u u2, NormO σ t u → NormO σ2 t u2 → NormO σ u2 u)) := by
  constructor
  · intro n x y σ h
    have hkσ : KeysVar σ := (unify_ext n h).2 keysVar_nil
    obtain ⟨haσ, hequ⟩ := unify_sound n h keysVar_nil acyclic_nil
    obtain ⟨θ, hval, happ⟩ := canonical_valuation hkσ
    obtain ⟨u0, hx0, hy0⟩ := hequ
    have huyx : applyV θ y = applyV θ x := by
      rw [happ y u0 hy0, happ x u0 hx0]
    obtain ⟨n2, r2, h2⟩ := unify_total y x [] keysVar_nil acyclic_nil
    obtain ⟨σ2, hr2, hmσ2⟩ := unify_complete n2 h2 hval models_nil huyx
    subst hr2
    have hkσ2 : KeysVar σ2 := (unify_ext n2 h2).2 keysVar_nil
    obtain ⟨haσ2, hequ2⟩ := unify_sound n2 h2 keysVar_nil acyclic_nil
    obtain ⟨θ2, hval2, happ2⟩ := canonical_valuation hkσ2
    obtain ⟨u1, hy1, hx1⟩ := hequ2
    have huxy : applyV θ2 x = applyV θ2 y := by
      rw [happ2 x u1 hx1, happ2 y u1 hy1]
    obtain ⟨σ3, hr3, hmσ3⟩ := unify_complete n h hval2 models_nil huxy
    have hσ3 : σ3 = σ := (Option.some.inj hr3).symm
    subst hσ3
    refine ⟨n2, σ2, h2, ?_, ?_⟩
    · intro t u u2 hu hu2
      obtain ⟨m, hm⟩ := hu
      have he1 : applyV θ2 u = applyV θ2 t := models_norm hmσ3 hkσ m t u hm
      obtain ⟨w2, hw2⟩ := acyclic_conv haσ2 u
      have he2 : applyV θ2 u = w2 := happ2 u w2 hw2
      have he3 : applyV θ2 t = u2 := happ2 t u2 hu2
      rw [he2, he3] at he1
      rw [he1] at hw2
      exact hw2
    · intro t u u2 hu hu2
      obtain ⟨m2, hm2⟩ := hu2
      have he1 : applyV θ u2 = applyV θ t := models_norm hmσ2 hkσ2 m2 t u2 hm2
      obtain ⟨w2, hw2⟩ := acyclic_conv haσ u2
      have he2 : applyV θ u2 = w2 := happ u2 w2 hw2
      have he3 : applyV θ t = u := happ t u hu
      rw [he2, he3] at he1
      rw [he1] at hw2
      exact hw2
  · intro n xs ys σ h
    have hkσ : KeysVar σ := (unifyTop_ext h).2 keysVar_nil
    obtain ⟨haσ, hequ⟩ := unifyTop_sound h keysVar_nil acyclic_nil
    obtain ⟨θ, hval, happ⟩ := canonical_valuation hkσ
    obtain ⟨us0, hxs0, hys0⟩ := hequ
    have hθn : ∀ nm u, NormO σ (FTerm.term nm) u → θ nm = u :=
      fun nm u hu => happ (FTerm.term nm) u hu
    have huyx : applyVL θ ys = applyVL θ xs := by
      rw [applyVL_of_norm hkσ hθn ys us0 hys0,
        applyVL_of_norm hkσ hθn xs us0 hxs0]
    obtain ⟨n2, r2, h2⟩ := unifyTop_total ys xs [] keysVar_nil acyclic_nil
    obtain ⟨σ2, hr2, hmσ2⟩ := unifyTop_complete h2 hval models_nil huyx
    subst hr2
    have hkσ2 : KeysVar σ2 := (unifyTop_ext h2).2 keysVar_nil
    obtain ⟨haσ2, hequ2⟩ := unifyTop_sound h2 keysVar_nil acyclic_nil
    obtain ⟨θ2, hval2, happ2⟩ := canonical_valuation hkσ2
    obtain ⟨us1, hys1, hxs1⟩ := hequ2
    have hθ2n : ∀ nm u, NormO σ2 (FTerm.term nm) u → θ2 nm = u :=
      fun nm u hu => happ2 (FTerm.term nm) u hu
    have huxy : applyVL θ2 xs = applyVL θ2 ys := by
      rw [applyVL_of_norm hkσ2 hθ2n xs us1 hxs1,
        applyVL_of_norm hkσ2 hθ2n ys us1 hys1]
    obtain ⟨σ3, hr3, hmσ3⟩ := unifyTop_complete h hval2 models_nil huxy
    have hσ3 : σ3 = σ := (Option.some.inj hr3).symm
    subst hσ3
    refine ⟨n2, σ2, h2, ?_, ?_⟩
    · intro t u u2 hu hu2
      obtain ⟨m, hm⟩ := hu
      have he1 : applyV θ2 u = applyV θ2 t := models_norm hmσ3 hkσ m t u hm
      obtain ⟨w2, hw2⟩ := acyclic_conv haσ2 u
      have he2 : applyV θ2 u = w2 := happ2 u w2 hw2
      have he3 : applyV θ2 t = u2 := happ2 t u2 hu2
      rw [he2, he3] at he1
      rw [he1] at hw2
      exact hw2
    · intro t u u2 hu hu2
      obtain ⟨m2, hm2⟩ := hu2
      have he1 : applyV θ u2 = applyV θ t := models_norm hmσ2 hkσ2 m2 t u2 hm2
      obtain ⟨w2, hw2⟩ := acyclic_conv haσ u2
      have he2 : applyV θ u2 = w2 := happ u2 w2 hw2
      have he3 : applyV θ t = u := happ t u hu
      rw [he2, he3] at he1
      rw [he1] at hw2
      exact hw2

theorem unify_symmetric_witness :
    ∃ n2 σ2, unifyF n2 (FTerm.term "A") (FTerm.term "x") [] = some (some σ2) ∧
      (∀ t u u2, NormO [(FTerm.term "x", FTerm.term "A")] t u →
        NormO σ2 t u2 → NormO σ2 u u2) ∧
      (∀ t u u2, NormO [(FTerm.term "x", FTerm.term "A")] t u →
        NormO σ2 t u2 → NormO [(FTerm.term "x", FTerm.term "A")] u2 u) :=
  unify_symmetric.1 10 (FTerm.term "x") (FTerm.term "A")
    [(FTerm.term "x", FTerm.term "A")] rfl

/-- C10 counterexample: the non-variable term `A` unifies with the
variable `y` although the two are not structurally equal — `unify` binds
`y ↦ A` — so "unifies with another term only when the two are structurally
equal" fails when the other term is a variable. -/
theorem nonvariable_unifies_with_variable :
    is_variable (FTerm.term "A") = false ∧
    unifyF 10 (FTerm.term "A") (FTerm.term "y") [] =
      some (some [(FTerm.term "y", FTerm.term "A")]) ∧
    FTerm.term "A" ≠ FTerm.term "y" := ⟨rfl, rfl, by decide⟩

end FOL
